import Mathlib

/-!
Verification development for the BayNet parameter-model core
(`baynet/parameters.py`, `baynet/utils/dag_io.py`).

Modelling conventions (shallow embedding):
* Machine floats are modelled by the inductive type `F`: an exact rational
  payload for finite values plus the IEEE specials NaN, +inf, -inf.
  Finite arithmetic is exact (overflow to infinity is not modelled; no value
  in this development approaches the float range boundary except the
  explicit `maxFloat` constant used by `np.nan_to_num`).
* A numpy tensor of shape (d0, ..., dk, n) holding probabilities is modelled
  by its list of last-axis rows (`List (List F)`), in row-major order,
  together with its shape where a claim mentions shapes.
* The process-wide random generator is modelled by an explicit `Rng` state:
  an infinite stream of draws plus a cursor; each sampling call consumes
  one draw per dataset row and returns the advanced state.
* Fallible Python code (raised exceptions) is modelled with `Except String`.
-/

/-- Model of an 8-byte IEEE-754 float value: exact rational for finite
values, plus NaN and the two infinities. -/
inductive F where
  | fin (q : ℚ)
  | nan
  | inf
  | ninf
deriving DecidableEq, Repr

namespace F

/-- IEEE addition on modelled floats (finite part exact). -/
def add : F → F → F
  | nan, _ => nan
  | _, nan => nan
  | fin a, fin b => fin (a + b)
  | inf, ninf => nan
  | ninf, inf => nan
  | inf, _ => inf
  | _, inf => inf
  | ninf, _ => ninf
  | _, ninf => ninf

/-- IEEE division on modelled floats.  A nonzero finite value divided by
(positive) zero gives a signed infinity, 0/0 gives NaN. -/
def div : F → F → F
  | nan, _ => nan
  | _, nan => nan
  | fin a, fin b =>
      if b = 0 then (if 0 < a then inf else if a < 0 then ninf else nan)
      else fin (a / b)
  | fin _, inf => fin 0
  | fin _, ninf => fin 0
  | inf, fin b => if b < 0 then ninf else inf
  | ninf, fin b => if b < 0 then inf else ninf
  | inf, inf => nan
  | inf, ninf => nan
  | ninf, inf => nan
  | ninf, ninf => nan

/-- Sum of a list of modelled floats (numpy `arr.sum(axis=-1)`). -/
def sum (l : List F) : F := l.foldl add (fin 0)

/-- Largest finite 8-byte float, (2^53 - 1) * 2^971 = 1.7976931348623157e308;
`np.nan_to_num` maps -inf to its negation by default. -/
def maxFloat : ℚ := 179769313486231570814527423731704356798070567525844996598917476803157260780028538760589558632766878171540458953514382464234321326889464182768467546703537516986049910576551282076245490090389328944075868508455133942304583236903222948165808559332123348274797826204144723168738177180919299881250404026184124858368

/-- `np.nan_to_num(x, nan=1e-8, posinf=1.0 - 1e-8)` on one entry; the
`neginf` argument is left at its numpy default, the most negative finite
float. -/
def nanToNum : F → F
  | nan => fin (1 / 100000000)
  | inf => fin (1 - 1 / 100000000)
  | ninf => fin (-maxFloat)
  | fin q => fin q

/-- IEEE comparison `x < p` for a real (finite) x against a modelled float:
anything is below +inf, nothing is below NaN or -inf. -/
def qlt (x : ℚ) : F → Bool
  | fin q => decide (x < q)
  | inf => true
  | nan => false
  | ninf => false

/-- Is this a finite (non-NaN, non-infinite) value? -/
def isFin : F → Bool
  | fin _ => true
  | _ => false

/-- Running cumulative sums (numpy `cumsum(axis=-1)` on one row),
with accumulator `acc`. -/
def cumsum (acc : F) : List F → List F
  | [] => []
  | x :: xs => add acc x :: cumsum (add acc x) xs

end F


/-- `self.array[self.array.sum(axis=-1) == 0] = 1` (`parameters.py` line 67)
on one last-axis row: a row summing to exactly 0 is set to all ones. -/
def replaceZeroRow (row : List F) : List F :=
  if F.sum row = F.fin 0 then row.map (fun _ => F.fin 1) else row

/-- `self.array /= np.expand_dims(self.array.sum(axis=-1), axis=-1)`
(`parameters.py` line 70) on one last-axis row. -/
def divByOwnSum (row : List F) : List F :=
  row.map (fun x => F.div x (F.sum row))

/-- One last-axis row of `ConditionalProbabilityTable.rescale_probabilities`
(`parameters.py` lines 66-70): rows summing to exactly 0 are set to all
ones, then NaN/inf entries are replaced via `np.nan_to_num`, then the row
is divided by its own (recomputed) sum. -/
def rescale_row (row : List F) : List F :=
  divByOwnSum ((replaceZeroRow row).map F.nanToNum)

/-- All last-axis rows of the `array` update in `rescale_probabilities`;
every step of the source acts row-locally along the last axis. -/
def rescale_rows (rows : List (List F)) : List (List F) :=
  rows.map rescale_row

/-- `cumsum_array = array.cumsum(axis=-1)`, per last-axis row. -/
def cumsum_rows (rows : List (List F)) : List (List F) :=
  rows.map (F.cumsum (F.fin 0))

/-- Boolean form of the spec's per-row invariant "sums to 1.0 within 1e-9":
the row sum is a finite value within 1e-9 of 1. -/
def rowSumNear1 (row : List F) : Bool :=
  match F.sum row with
  | F.fin q => decide (|q - 1| ≤ 1 / 1000000000)
  | _ => false

/-- Boolean form of "contains no NaN or infinity". -/
def rowAllFin (row : List F) : Bool := row.all F.isFin

/-- Boolean form of "`cumsum_array`'s last entry per row equals 1.0 within
1e-9". -/
def lastNear1 (row : List F) : Bool :=
  match row.getLast? with
  | some (F.fin q) => decide (|q - 1| ≤ 1 / 1000000000)
  | _ => false

lemma F.add_fin (a b : ℚ) : F.add (F.fin a) (F.fin b) = F.fin (a + b) := rfl

lemma F.foldl_add_map_fin (l : List ℚ) (a : ℚ) :
    (l.map F.fin).foldl F.add (F.fin a) = F.fin (a + l.sum) := by
  induction l generalizing a with
  | nil => simp
  | cons x xs ih => simp [F.add_fin, ih, add_assoc]

lemma F.sum_map_fin (l : List ℚ) : F.sum (l.map F.fin) = F.fin l.sum := by
  simp [F.sum, F.foldl_add_map_fin]

lemma rowAllFin_exists (row : List F) (h : rowAllFin row = true) :
    ∃ qs : List ℚ, row = qs.map F.fin := by
  induction row with
  | nil => exact ⟨[], rfl⟩
  | cons x xs ih =>
      simp only [rowAllFin, List.all_cons, Bool.and_eq_true] at h
      obtain ⟨qs, hqs⟩ := ih h.2
      cases x with
      | fin q => exact ⟨q :: qs, by simp [hqs]⟩
      | nan => simp [F.isFin] at h
      | inf => simp [F.isFin] at h
      | ninf => simp [F.isFin] at h

lemma F.nanToNum_fin (q : ℚ) : F.nanToNum (F.fin q) = F.fin q := rfl

lemma map_nanToNum_fin (qs : List ℚ) :
    (qs.map F.fin).map F.nanToNum = qs.map F.fin := by
  simp [List.map_map, Function.comp, F.nanToNum]

lemma F.div_fin_ne (a s : ℚ) (hs : s ≠ 0) :
    F.div (F.fin a) (F.fin s) = F.fin (a / s) := by
  simp [F.div, hs]

lemma map_div_fin (qs : List ℚ) (s : ℚ) (hs : s ≠ 0) :
    (qs.map F.fin).map (fun x => F.div x (F.fin s)) =
      (qs.map (fun q => q / s)).map F.fin := by
  simp only [List.map_map]
  exact List.map_congr_left (fun a _ => F.div_fin_ne a s hs)

lemma qlist_sum_div (l : List ℚ) (s : ℚ) :
    (l.map (fun q => q / s)).sum = l.sum / s := by
  induction l with
  | nil => simp
  | cons x xs ih => simp [ih, add_div]

lemma map_const_one (qs : List ℚ) :
    (qs.map F.fin).map (fun _ => F.fin 1) =
      (List.replicate qs.length (1 : ℚ)).map F.fin := by
  rw [List.map_replicate]
  induction qs with
  | nil => rfl
  | cons x xs ih =>
      simp only [List.map_cons, List.length_cons, List.replicate_succ]
      exact congrArg (List.cons (F.fin 1)) ih

/-- Core fact about one row of `rescale_probabilities` on finite data: the
output row is finite, has the same length, and sums exactly to 1. -/
lemma rescale_row_spec (qs : List ℚ) (hne : qs ≠ []) :
    ∃ rs : List ℚ, rescale_row (qs.map F.fin) = rs.map F.fin ∧
      rs.sum = 1 ∧ rs.length = qs.length := by
  have hlen : (qs.length : ℚ) ≠ 0 := by
    simpa using (Nat.cast_ne_zero (R := ℚ)).mpr (List.length_pos.mpr hne).ne'
  by_cases h0 : qs.sum = 0
  · refine ⟨List.replicate qs.length ((1 : ℚ) / qs.length), ?_, ?_, by simp⟩
    · unfold rescale_row divByOwnSum
      rw [replaceZeroRow, F.sum_map_fin, h0, if_pos rfl, map_const_one,
        map_nanToNum_fin, F.sum_map_fin]
      have h2 : (List.replicate qs.length (1 : ℚ)).sum = (qs.length : ℚ) := by
        simp [List.sum_replicate]
      rw [h2, map_div_fin _ _ hlen, List.map_replicate]
    · simp [List.sum_replicate, nsmul_eq_mul]
      field_simp
  · refine ⟨qs.map (fun q => q / qs.sum), ?_, ?_, by simp⟩
    · unfold rescale_row divByOwnSum
      rw [replaceZeroRow, F.sum_map_fin, if_neg (by simpa using h0),
        map_nanToNum_fin, F.sum_map_fin, map_div_fin _ _ h0]
    · rw [qlist_sum_div, div_self h0]

/-- A finite row already summing to exactly 1 is a fixed point of
`rescale_row`. -/
lemma rescale_row_fixed (qs : List ℚ) (h1 : qs.sum = 1) :
    rescale_row (qs.map F.fin) = qs.map F.fin := by
  unfold rescale_row divByOwnSum
  rw [replaceZeroRow, F.sum_map_fin, if_neg (by simp [h1]), map_nanToNum_fin,
    F.sum_map_fin, h1, map_div_fin _ _ one_ne_zero]
  simp

lemma rescale_row_nil : rescale_row [] = [] := by decide

lemma F.cumsum_getLast (l : List F) (acc : F) (h : l ≠ []) :
    (F.cumsum acc l).getLast? = some (l.foldl F.add acc) := by
  induction l generalizing acc with
  | nil => exact absurd rfl h
  | cons x xs ih =>
      cases xs with
      | nil => simp [F.cumsum]
      | cons y tl =>
          have e1 : F.cumsum acc (x :: y :: tl)
              = F.add acc x :: F.add (F.add acc x) y ::
                F.cumsum (F.add (F.add acc x) y) tl := rfl
          rw [e1, List.getLast?_cons_cons]
          have e2 : F.add (F.add acc x) y :: F.cumsum (F.add (F.add acc x) y) tl
              = F.cumsum (F.add acc x) (y :: tl) := rfl
          rw [e2, ih (F.add acc x) (by simp)]
          rfl

/-- Vertex of the external graph as seen by `parameters.py`: an igraph
vertex carrying its integer index, its name, and its optional `levels`
attribute. -/
structure NodeV where
  index : ℕ
  name : String
  levels : Option (List String)
deriving DecidableEq, Repr

/-- Explicit state of the process-wide numpy random generator: an infinite
stream of draws plus a cursor.  A call drawing `n` values reads positions
`pos`, ..., `pos + n - 1` of the stream and advances the cursor, so
successive calls use fresh draws. -/
structure Rng where
  stream : ℕ → ℚ
  pos : ℕ

/-- Advance the random generator past `n` consumed draws. -/
def Rng.advance (r : Rng) (n : ℕ) : Rng := { r with pos := r.pos + n }

/-- `ConditionalProbabilityTable` (`parameters.py` lines 8-31).  The numpy
tensors `array` and `cumsum_array` of shape
(n_parent_levels[0], ..., n_parent_levels[k-1], n_levels) are stored as
their row-major lists of last-axis rows. -/
structure ConditionalProbabilityTable where
  parent_levels : List (List String)
  parents : List ℕ
  levels : List String
  array : List (List F)
  cumsum_array : List (List F)
  _scaled : Bool
deriving DecidableEq, Repr

namespace ConditionalProbabilityTable

/-- Derived field `n_parent_levels` (`parameters.py` line 21). -/
def n_parent_levels (t : ConditionalProbabilityTable) : List ℕ :=
  t.parent_levels.map List.length

/-- Derived field `n_levels` (`parameters.py` line 28). -/
def n_levels (t : ConditionalProbabilityTable) : ℕ := t.levels.length

/-- The numpy shape of `array`: `[*n_parent_levels, n_levels]`
(`parameters.py` line 30). -/
def shape (t : ConditionalProbabilityTable) : List ℕ :=
  t.n_parent_levels ++ [t.n_levels]

/-- `ConditionalProbabilityTable.__init__(node)` (`parameters.py` lines
11-31) for a non-None node: fails when a parent, or the node itself, lacks
the `levels` attribute; otherwise builds zero-filled `array` and
`cumsum_array`.  `inNbrs` is `node.neighbors(mode="in")` in igraph order. -/
def init (node : NodeV) (inNbrs : List NodeV) :
    Except String ConditionalProbabilityTable :=
  if (inNbrs.map NodeV.levels).any Option.isNone then
    .error ("Parent of " ++ node.name ++ " missing attribute levels")
  else
    match node.levels with
    | none => .error ("Node " ++ node.name ++ " missing attribute levels")
    | some nodeLevels =>
        .ok { parent_levels := inNbrs.map (fun v => v.levels.getD []),
              parents := inNbrs.map NodeV.index,
              levels := nodeLevels,
              array := List.replicate
                  ((inNbrs.map (fun v => (v.levels.getD []).length)).prod)
                  (List.replicate nodeLevels.length (F.fin 0)),
              cumsum_array := List.replicate
                  ((inNbrs.map (fun v => (v.levels.getD []).length)).prod)
                  (List.replicate nodeLevels.length (F.fin 0)),
              _scaled := false }

/-- `rescale_probabilities` (`parameters.py` lines 58-72): rescale `array`
row-wise, recompute `cumsum_array` from the rescaled `array`, set the
scaled flag. -/
def rescale_probabilities (t : ConditionalProbabilityTable) :
    ConditionalProbabilityTable :=
  { t with array := rescale_rows t.array,
           cumsum_array := cumsum_rows (rescale_rows t.array),
           _scaled := true }

end ConditionalProbabilityTable

/-- Truncation toward zero: `ndarray.astype(int)` on one value. -/
def qtrunc (q : ℚ) : ℤ := if 0 ≤ q then q.floor else -((-q).floor)

/-- numpy index resolution for one axis of size `d`: indices in `[0, d)`
are used as is, indices in `[-d, 0)` wrap around, anything else raises
IndexError (`none`). -/
def wrapComponent (d : ℕ) (i : ℤ) : Option ℕ :=
  if 0 ≤ i ∧ i < (d : ℤ) then some i.toNat
  else if -(d : ℤ) ≤ i ∧ i < 0 then some (i + d).toNat
  else none

/-- Row-major flat position of a full tuple of integer indices into a
tensor whose non-last axes have sizes `dims`. -/
def flatIndex (dims : List ℕ) (idx : List ℤ) : Option ℕ :=
  if idx.length = dims.length then
    (dims.zip idx).foldlM
      (fun acc p => (wrapComponent p.1 p.2).map (fun j => acc * p.1 + j)) 0
  else none

/-- `cpt[parent_values[row_idx]]` (`parameters.py` line 108): select the
last-axis row of the tensor at a tuple of parent indices. -/
def tupleRow (dims : List ℕ) (rows : List (List F)) (idx : List ℤ) :
    Option (List F) :=
  (flatIndex dims idx).bind (fun k => rows[k]?)

/-- `np.argmax(random_vector[row_idx] < probs)` (`parameters.py` line 109):
the first index where the comparison holds, or 0 when it never does. -/
def argmaxLt (u : ℚ) (probs : List F) : ℕ :=
  if probs.any (F.qlt u) then probs.findIdx (fun p => F.qlt u p) else 0

/-- `_sample_cpt` (`parameters.py` lines 102-110): one output per entry of
the random vector (`u 0`, ..., `u (n-1)`), each the argmax over the
cumulative row selected by that row's parent values. -/
def sample_cpt (cpt : List ℤ → Option (List F))
    (parent_values : List (List ℤ)) (u : ℕ → ℚ) (n : ℕ) : Option (List ℕ) :=
  (List.range n).mapM
    (fun i => (cpt (parent_values.getD i [])).map (fun probs => argmaxLt (u i) probs))

/-- `incomplete_data[:, self.parents].astype(int)` (`parameters.py` line
78): per dataset row, the parent columns cast to integers; an out-of-range
column raises IndexError (`none`). -/
def dataParentValues (parents : List ℕ) (data : List (List ℚ)) :
    Option (List (List ℤ)) :=
  data.mapM (fun drow => parents.mapM (fun p => (drow[p]?).map qtrunc))

/-- `ConditionalProbabilityTable.sample` (`parameters.py` lines 74-81):
requires the scaled flag, extracts integer parent values, draws one fresh
uniform per dataset row, and delegates to `_sample_cpt` on
`cumsum_array`. -/
def ConditionalProbabilityTable.sample (t : ConditionalProbabilityTable)
    (data : List (List ℚ)) (rng : Rng) : Except String (List ℕ × Rng) :=
  if t._scaled = false then
    .error "CPT not scaled; use .rescale_probabilities() before sampling"
  else
    match dataParentValues t.parents data with
    | none => .error "IndexError: index out of bounds"
    | some pvs =>
        match sample_cpt (tupleRow t.n_parent_levels t.cumsum_array) pvs
            (fun i => rng.stream (rng.pos + i)) data.length with
        | none => .error "IndexError: index out of bounds"
        | some out => .ok (out, rng.advance data.length)

/-- `ConditionalProbabilityDistribution` (`parameters.py` lines 113-127):
noise mean and standard deviation (defaults 0 and 1), parent column
indices, and one weight per parent in `array`. -/
structure ConditionalProbabilityDistribution where
  mean : ℚ
  std : ℚ
  parents : List ℕ
  array : List ℚ
deriving DecidableEq, Repr

/-- Row dot product `parent_values.dot(self.array)` for one dataset row. -/
def listDot (v w : List ℚ) : ℚ := ((v.zip w).map (fun p => p.1 * p.2)).sum

/-- `ConditionalProbabilityDistribution.sample` (`parameters.py` lines
153-159): draw one normal noise value per dataset row
(`np.random.normal(loc=mean, scale=std)` is modelled as
`mean + std * z` over standard draws `z` from the generator stream);
return the noise alone when there are no parents, otherwise the per-row
dot product of the parent columns with `array` plus that same noise. -/
def ConditionalProbabilityDistribution.sample
    (m : ConditionalProbabilityDistribution) (data : List (List ℚ))
    (rng : Rng) : Except String (List ℚ × Rng) :=
  let noise := (List.range data.length).map
    (fun i => m.mean + m.std * rng.stream (rng.pos + i))
  if m.parents.length = 0 then .ok (noise, rng.advance data.length)
  else
    match data.mapM (fun drow => m.parents.mapM (fun p => drow[p]?)) with
    | none => .error "IndexError: index out of bounds"
    | some pvs =>
        if m.array.length = m.parents.length then
          .ok (List.zipWith (fun pv ns => listDot pv m.array + ns) pvs noise,
               rng.advance data.length)
        else .error "ValueError: shapes not aligned"

lemma rowAllFin_map_fin (qs : List ℚ) : rowAllFin (qs.map F.fin) = true := by
  simp [rowAllFin, List.all_eq_true, F.isFin]

lemma map_const_fin_one (row : List F) :
    row.map (fun _ => F.fin 1) = List.replicate row.length (F.fin 1) := by
  induction row with
  | nil => rfl
  | cons x xs ih => simp [List.replicate_succ, ih]

/-- Any row summing to exactly 0 (not only all-zero rows) is replaced by
all ones and hence rescaled to the uniform distribution. -/
lemma rescale_row_zero_sum (row : List F) (h0 : F.sum row = F.fin 0)
    (hne : row ≠ []) :
    rescale_row row = List.replicate row.length (F.fin (1 / (row.length : ℚ))) := by
  have hlen : ((row.length : ℚ)) ≠ 0 := by
    simpa using (Nat.cast_ne_zero (R := ℚ)).mpr (List.length_pos.mpr hne).ne'
  unfold rescale_row divByOwnSum replaceZeroRow
  rw [if_pos h0, map_const_fin_one, ← List.map_replicate (f := F.fin),
    map_nanToNum_fin, F.sum_map_fin]
  have h2 : (List.replicate row.length (1 : ℚ)).sum = (row.length : ℚ) := by
    simp [List.sum_replicate]
  rw [h2, map_div_fin _ _ hlen, List.map_replicate, List.map_replicate]

lemma rowSumNear1_of_sum_one (rs : List ℚ) (h : rs.sum = 1) :
    rowSumNear1 (rs.map F.fin) = true := by
  simp [rowSumNear1, F.sum_map_fin, h]

lemma lastNear1_of_sum_one (rs : List ℚ) (h : rs.sum = 1) (hne : rs ≠ []) :
    lastNear1 (F.cumsum (F.fin 0) (rs.map F.fin)) = true := by
  have hne' : rs.map F.fin ≠ [] := by simpa using hne
  have hfold : (rs.map F.fin).foldl F.add (F.fin 0) = F.fin 1 := by
    have h1 := F.sum_map_fin rs
    unfold F.sum at h1
    rw [h1, h]
  unfold lastNear1
  rw [F.cumsum_getLast _ _ hne', hfold]
  norm_num


lemma rescale_key (t : ConditionalProbabilityTable)
    (hfin : ∀ row ∈ t.array, rowAllFin row = true)
    (hne : ∀ row ∈ t.array, row ≠ []) :
    ∀ row ∈ t.array, ∃ rs : List ℚ,
      rescale_row row = rs.map F.fin ∧ rs.sum = 1 ∧ rs ≠ [] := by
  intro row hrow
  obtain ⟨qs, rfl⟩ := rowAllFin_exists row (hfin row hrow)
  have hqs : qs ≠ [] := by
    intro hq
    exact hne _ hrow (by simp [hq])
  obtain ⟨rs, heq, hsum, hlen⟩ := rescale_row_spec qs hqs
  refine ⟨rs, heq, hsum, ?_⟩
  intro hrs
  rw [hrs] at hlen
  exact hqs (List.length_eq_zero.mp hlen.symm)

/-- C2 (amended): for a categorical table all of whose `array` entries are
finite, with no empty last-axis row, every row of the rescaled `array`
sums to 1 exactly (hence within 1e-9) and contains no NaN or infinity, and
the last entry of every `cumsum_array` row equals 1 exactly (hence within
1e-9).  The original claim quantified over tables with arbitrary
NaN/infinite entries; `C2_counterexample` refutes that reading. -/
theorem C2_rescaled_rows_valid (t : ConditionalProbabilityTable)
    (hfin : ∀ row ∈ t.array, rowAllFin row = true)
    (hne : ∀ row ∈ t.array, row ≠ []) :
    (t.rescale_probabilities.array.all
      (fun r => rowSumNear1 r && rowAllFin r) = true) ∧
    (t.rescale_probabilities.cumsum_array.all lastNear1 = true) := by
  have key := rescale_key t hfin hne
  constructor
  · rw [List.all_eq_true]
    intro r hr
    have hr' : r ∈ List.map rescale_row t.array := hr
    obtain ⟨row, hrow, rfl⟩ := List.mem_map.mp hr'
    obtain ⟨rs, heq, hsum, hrs⟩ := key row hrow
    rw [heq, rowSumNear1_of_sum_one rs hsum, rowAllFin_map_fin]
    rfl
  · rw [List.all_eq_true]
    intro r hr
    have hr' : r ∈ List.map (F.cumsum (F.fin 0)) (List.map rescale_row t.array) := hr
    obtain ⟨r1, hr1, rfl⟩ := List.mem_map.mp hr'
    obtain ⟨row, hrow, rfl⟩ := List.mem_map.mp hr1
    obtain ⟨rs, heq, hsum, hrs⟩ := key row hrow
    rw [heq]
    exact lastNear1_of_sum_one rs hsum hrs

/-- Table with a row that evades the zero-sum replacement (its sum is NaN)
but becomes zero-sum after `np.nan_to_num`, so the division step produces
infinities. -/
def C2badTable : ConditionalProbabilityTable :=
  { parent_levels := [], parents := [], levels := ["a", "b"],
    array := [[F.nan, F.fin (-(1 / 100000000))]],
    cumsum_array := [[F.fin 0, F.fin 0]], _scaled := false }

/-- C2 counterexample: on the table whose single row is [NaN, -1e-8],
`rescale_probabilities` produces the row [+inf, -inf], which neither sums
to 1 within 1e-9 nor is free of infinities — the claim is false for
arbitrary NaN entries. -/
theorem C2_counterexample :
    C2badTable.rescale_probabilities.array.all
      (fun r => rowSumNear1 r && rowAllFin r) = false := by
  with_unfolding_all decide

/-- Witness table for C2 with finite entries. -/
def C2wTable : ConditionalProbabilityTable :=
  { parent_levels := [], parents := [], levels := ["a", "b"],
    array := [[F.fin 1, F.fin 3]],
    cumsum_array := [[F.fin 0, F.fin 0]], _scaled := false }

/-- Witness for C2 at a concrete finite table. -/
theorem C2_witness :
    (C2wTable.rescale_probabilities.array.all
      (fun r => rowSumNear1 r && rowAllFin r) = true) ∧
    (C2wTable.rescale_probabilities.cumsum_array.all lastNear1 = true) :=
  C2_rescaled_rows_valid C2wTable (by decide) (by decide)

lemma rescale_row_idem_fin (row : List F) (h : rowAllFin row = true) :
    rescale_row (rescale_row row) = rescale_row row := by
  obtain ⟨qs, rfl⟩ := rowAllFin_exists row h
  rcases eq_or_ne qs [] with rfl | hne
  · simp [rescale_row_nil]
  · obtain ⟨rs, heq, hsum, hlen⟩ := rescale_row_spec qs hne
    rw [heq, rescale_row_fixed rs hsum]

/-- C3 (amended): on a table all of whose `array` entries are finite,
`rescale_probabilities` is idempotent — a second application leaves
`array` unchanged, exactly.  The original claim covered every table,
including ones holding NaN; `C3_counterexample` refutes that reading. -/
theorem C3_rescale_idempotent (t : ConditionalProbabilityTable)
    (hfin : ∀ row ∈ t.array, rowAllFin row = true) :
    t.rescale_probabilities.rescale_probabilities.array =
      t.rescale_probabilities.array := by
  show rescale_rows (rescale_rows t.array) = rescale_rows t.array
  unfold rescale_rows
  rw [List.map_map]
  exact List.map_congr_left
    (fun row hrow => rescale_row_idem_fin row (hfin row hrow))

/-- Same adversarial table as `C2badTable`, owned by claim C3. -/
def C3badTable : ConditionalProbabilityTable :=
  { parent_levels := [], parents := [], levels := ["a", "b"],
    array := [[F.nan, F.fin (-(1 / 100000000))]],
    cumsum_array := [[F.fin 0, F.fin 0]], _scaled := false }

set_option maxRecDepth 40000 in
/-- C3 counterexample: after one `rescale_probabilities` the adversarial
table holds [+inf, -inf]; a second call turns that into finite values via
`np.nan_to_num`, so the second call does change `array`. -/
theorem C3_counterexample :
    C3badTable.rescale_probabilities.rescale_probabilities.array ≠
      C3badTable.rescale_probabilities.array := by
  with_unfolding_all decide

/-- Witness table for C3 with finite entries. -/
def C3wTable : ConditionalProbabilityTable :=
  { parent_levels := [], parents := [], levels := ["a", "b"],
    array := [[F.fin 2, F.fin 2], [F.fin 0, F.fin 0]],
    cumsum_array := [[F.fin 0, F.fin 0], [F.fin 0, F.fin 0]],
    _scaled := false }

/-- Witness for C3 at a concrete finite table. -/
theorem C3_witness :
    C3wTable.rescale_probabilities.rescale_probabilities.array =
      C3wTable.rescale_probabilities.array :=
  C3_rescale_idempotent C3wTable (by decide)

/-- The explicit `maxFloat` literal is (2^53 - 1) * 2^971, the largest
finite 8-byte float. -/
lemma maxFloat_eq : F.maxFloat = (2 ^ 53 - 1) * 2 ^ 971 := by
  norm_num [F.maxFloat]

/-- `self.array[i] = row`: direct assignment of one last-axis row (the
manual edit performed by the C5 scenario before rescaling). -/
def ConditionalProbabilityTable.setRow (t : ConditionalProbabilityTable)
    (i : ℕ) (r : List F) : ConditionalProbabilityTable :=
  { t with array := t.array.set i r }

/-- Parent vertex with levels [x, y] for the C5 concrete scenario. -/
def C5parent : NodeV := ⟨0, "A", some ["x", "y"]⟩

/-- Child vertex with levels [a, b, c] for the C5 concrete scenario. -/
def C5node : NodeV := ⟨1, "B", some ["a", "b", "c"]⟩

/-- C5: any `array` row summing to exactly 0 is replaced by all ones before
normalization, so it rescales to the uniform distribution over the node's
levels; and concretely, the table built from one 2-level parent and a
3-level node has shape (2, 3) and, after zeroing row 0 and rescaling, row 0
equals [1/3, 1/3, 1/3]. -/
theorem C5_zero_row_uniform :
    (∀ (t : ConditionalProbabilityTable) (i : ℕ) (row : List F),
        t.array[i]? = some row → F.sum row = F.fin 0 → row ≠ [] →
        t.rescale_probabilities.array[i]? =
          some (List.replicate row.length (F.fin (1 / (row.length : ℚ))))) ∧
    ((ConditionalProbabilityTable.init C5node [C5parent]).toOption.map
        (fun t0 => (t0.shape,
          ((t0.setRow 0 (List.replicate 3 (F.fin 0))).rescale_probabilities).array[0]?)) =
      some ([2, 3],
        some [F.fin (1 / 3), F.fin (1 / 3), F.fin (1 / 3)])) := by
  constructor
  · intro t i row hi h0 hne
    show (List.map rescale_row t.array)[i]? = _
    rw [List.getElem?_map, hi]
    simp [rescale_row_zero_sum row h0 hne]
  · with_unfolding_all decide

/-- Witness table for C5: a 1-by-2 table whose only row sums to 0. -/
def C5wTable : ConditionalProbabilityTable :=
  { parent_levels := [], parents := [], levels := ["a", "b"],
    array := [[F.fin 0, F.fin 0]],
    cumsum_array := [[F.fin 0, F.fin 0]], _scaled := false }

/-- Witness for C5: applying the general zero-row statement at the
concrete table whose single row is [0, 0] (length 2, so the uniform value
is 1/2). -/
theorem C5_witness :
    C5wTable.rescale_probabilities.array[0]? =
      some (List.replicate ([F.fin 0, F.fin 0] : List F).length
        (F.fin (1 / (([F.fin 0, F.fin 0] : List F).length : ℚ)))) :=
  C5_zero_row_uniform.1 C5wTable 0 [F.fin 0, F.fin 0] (by decide)
    (by with_unfolding_all decide) (by decide)

/-- C6: `sample` on a table whose scaled flag is unset fails immediately
with the not-scaled error; no output and no advanced generator state are
produced (the `.error` result carries neither), and the table, which
`sample` never writes to, is unchanged. -/
theorem C6_sample_unscaled (t : ConditionalProbabilityTable)
    (data : List (List ℚ)) (rng : Rng) (h : t._scaled = false) :
    t.sample data rng =
      .error "CPT not scaled; use .rescale_probabilities() before sampling" := by
  simp [ConditionalProbabilityTable.sample, h]

/-- Witness table for C6 (never rescaled). -/
def C6wTable : ConditionalProbabilityTable :=
  { parent_levels := [], parents := [], levels := ["a"],
    array := [[F.fin 1]], cumsum_array := [[F.fin 1]], _scaled := false }

/-- Witness for C6 at a concrete unscaled table. -/
theorem C6_witness :
    C6wTable.sample [[0]] ⟨fun _ => 0, 0⟩ =
      .error "CPT not scaled; use .rescale_probabilities() before sampling" :=
  C6_sample_unscaled C6wTable [[0]] ⟨fun _ => 0, 0⟩ rfl

/-- C7: constructing a `ConditionalProbabilityTable` from a node fails
with a validation error exactly when some parent lacks a level set or the
node itself lacks one; on success, `array` and `cumsum_array` are
zero-filled tensors of shape (n_parent_levels[0], ..., n_levels). -/
theorem C7_init_validation (node : NodeV) (inNbrs : List NodeV) :
    ((∃ e, ConditionalProbabilityTable.init node inNbrs = .error e) ↔
      ((∃ p ∈ inNbrs, p.levels = none) ∨ node.levels = none)) ∧
    (∀ t, ConditionalProbabilityTable.init node inNbrs = .ok t →
      t.array = List.replicate
          ((inNbrs.map (fun v => (v.levels.getD []).length)).prod)
          (List.replicate (node.levels.getD []).length (F.fin 0)) ∧
      t.cumsum_array = t.array ∧
      t.shape = (inNbrs.map (fun v => (v.levels.getD []).length)) ++
        [(node.levels.getD []).length]) := by
  have hiff : ((inNbrs.map NodeV.levels).any Option.isNone = true) ↔
      (∃ p ∈ inNbrs, p.levels = none) := by
    constructor
    · intro h
      obtain ⟨x, hx, hnone⟩ := List.any_eq_true.mp h
      obtain ⟨p, hpmem, rfl⟩ := List.mem_map.mp hx
      exact ⟨p, hpmem, Option.isNone_iff_eq_none.mp hnone⟩
    · rintro ⟨p, hpmem, hnone⟩
      exact List.any_eq_true.mpr
        ⟨p.levels, List.mem_map.mpr ⟨p, hpmem, rfl⟩, by simp [hnone]⟩
  unfold ConditionalProbabilityTable.init
  by_cases hp : (inNbrs.map NodeV.levels).any Option.isNone = true
  · rw [if_pos hp]
    constructor
    · exact iff_of_true ⟨_, rfl⟩ (Or.inl (hiff.mp hp))
    · intro t ht
      exact absurd ht (by simp)
  · rw [if_neg hp]
    cases hnl : node.levels with
    | none =>
        constructor
        · exact iff_of_true ⟨_, rfl⟩ (Or.inr rfl)
        · intro t ht
          exact absurd ht (by simp)
    | some ls =>
        constructor
        · constructor
          · rintro ⟨e, he⟩
            exact absurd he (by simp)
          · rintro (hparent | hnone)
            · exact absurd hparent (by
                intro hx
                exact hp (hiff.mpr hx))
            · exact absurd hnone (by simp)
        · intro t ht
          rw [Except.ok.injEq] at ht
          subst ht
          refine ⟨rfl, rfl, ?_⟩
          unfold ConditionalProbabilityTable.shape
            ConditionalProbabilityTable.n_parent_levels
            ConditionalProbabilityTable.n_levels
          simp [List.map_map, Function.comp]

lemma opt_mapM_length {α β : Type} (f : α → Option β) :
    ∀ (l : List α) (out : List β), l.mapM f = some out → out.length = l.length := by
  intro l
  induction l with
  | nil =>
      intro out h
      simp only [List.mapM_nil, pure, Option.some.injEq] at h
      rw [← h]
      rfl
  | cons a as ih =>
      intro out h
      rw [List.mapM_cons] at h
      cases hfa : f a with
      | none => simp [hfa] at h
      | some b =>
          simp only [hfa, Option.bind_eq_bind, Option.some_bind, bind, pure] at h
          cases hbs : as.mapM f with
          | none => rw [hbs] at h; simp at h
          | some bs =>
              rw [hbs] at h
              simp only [Option.some_bind, Option.some.injEq] at h
              rw [← h]
              simp [ih bs hbs]

lemma opt_mapM_get {α β : Type} (f : α → Option β) :
    ∀ (l : List α) (out : List β), l.mapM f = some out →
      ∀ i : ℕ, out[i]? = (l[i]?).bind f := by
  intro l
  induction l with
  | nil =>
      intro out h i
      simp only [List.mapM_nil, pure, Option.some.injEq] at h
      rw [← h]
      simp
  | cons a as ih =>
      intro out h i
      rw [List.mapM_cons] at h
      cases hfa : f a with
      | none => simp [hfa] at h
      | some b =>
          simp only [hfa, Option.bind_eq_bind, Option.some_bind, bind, pure] at h
          cases hbs : as.mapM f with
          | none => rw [hbs] at h; simp at h
          | some bs =>
              rw [hbs] at h
              simp only [Option.some_bind, Option.some.injEq] at h
              rw [← h]
              cases i with
              | zero => simp [hfa]
              | succ j => simpa using ih bs hbs j

lemma opt_mapM_isSome {α β : Type} (f : α → Option β) :
    ∀ (l : List α), (∀ a ∈ l, (f a).isSome = true) → ∃ out, l.mapM f = some out := by
  intro l
  induction l with
  | nil => exact fun _ => ⟨[], rfl⟩
  | cons a as ih =>
      intro h
      obtain ⟨b, hb⟩ := Option.isSome_iff_exists.mp (h a (by simp))
      obtain ⟨bs, hbs⟩ := ih (fun x hx => h x (by simp [hx]))
      refine ⟨b :: bs, ?_⟩
      rw [List.mapM_cons, hb, hbs]
      rfl

/-- C4: on a scaled table, `sample` draws one fresh uniform per dataset
row (positions `rng.pos + i` of the generator stream, cursor advanced by
the row count) and returns, for row `i`, the first level index at which
the `cumsum_array` row selected by that dataset row's integer-cast parent
values exceeds that row's own draw (`List.findIdx`, which `np.argmax`
implements when a true entry exists — hypothesis `hex`). -/
theorem C4_sample_first_exceed (t : ConditionalProbabilityTable)
    (data : List (List ℚ)) (rng : Rng)
    (hs : t._scaled = true)
    (pvs : List (List ℤ)) (hpvs : dataParentValues t.parents data = some pvs)
    (hall : ∀ pv ∈ pvs,
      (tupleRow t.n_parent_levels t.cumsum_array pv).isSome = true)
    (i : ℕ) (pv : List ℤ) (hipv : pvs[i]? = some pv)
    (row : List F) (hrow : tupleRow t.n_parent_levels t.cumsum_array pv = some row)
    (hex : row.any (F.qlt (rng.stream (rng.pos + i))) = true) :
    ∃ out, t.sample data rng = .ok (out, rng.advance data.length) ∧
      out[i]? = some (row.findIdx (fun p => F.qlt (rng.stream (rng.pos + i)) p)) := by
  have hlen : pvs.length = data.length := opt_mapM_length _ data pvs hpvs
  have hilt : i < pvs.length := (List.getElem?_eq_some.mp hipv).1
  have hgetD : pvs.getD i [] = pv := by
    rw [List.getD_eq_getElem?_getD, hipv]
    rfl
  have hsome : ∀ j ∈ List.range data.length,
      ((tupleRow t.n_parent_levels t.cumsum_array (pvs.getD j [])).map
        (fun probs => argmaxLt (rng.stream (rng.pos + j)) probs)).isSome = true := by
    intro j hj
    have hjlt : j < pvs.length := by
      rw [hlen]
      exact List.mem_range.mp hj
    have hmem : pvs.getD j [] ∈ pvs := by
      rw [List.getD_eq_getElem?_getD, List.getElem?_eq_getElem hjlt]
      exact List.getElem_mem hjlt
    obtain ⟨r, hr⟩ := Option.isSome_iff_exists.mp (hall _ hmem)
    rw [hr]
    rfl
  obtain ⟨out, hout⟩ := opt_mapM_isSome _ (List.range data.length) hsome
  have hsc : sample_cpt (tupleRow t.n_parent_levels t.cumsum_array) pvs
      (fun k => rng.stream (rng.pos + k)) data.length = some out := hout
  refine ⟨out, ?_, ?_⟩
  · unfold ConditionalProbabilityTable.sample
    rw [hs]
    split
    · next h => exact absurd h (by decide)
    · next =>
        split
        · next heq =>
            rw [hpvs] at heq
            exact Option.noConfusion heq
        · next pvs2 heq =>
            rw [hpvs] at heq
            injection heq with heq2
            subst heq2
            split
            · next heq3 =>
                rw [hsc] at heq3
                exact Option.noConfusion heq3
            · next out2 heq3 =>
                rw [hsc] at heq3
                injection heq3 with heq4
                subst heq4
                rfl
  · have hgot := opt_mapM_get _ (List.range data.length) out hout i
    rw [hgot, List.getElem?_range (by rw [← hlen]; exact hilt)]
    show ((tupleRow t.n_parent_levels t.cumsum_array (pvs.getD i [])).map
      (fun probs => argmaxLt (rng.stream (rng.pos + i)) probs)) = _
    rw [hgetD, hrow]
    show some (argmaxLt (rng.stream (rng.pos + i)) row) = _
    rw [show argmaxLt (rng.stream (rng.pos + i)) row =
      row.findIdx (fun p => F.qlt (rng.stream (rng.pos + i)) p) from by
        unfold argmaxLt
        rw [if_pos hex]]

/-- Witness table for C4: a scaled, parentless table over two levels with
cumulative row [1/2, 1]. -/
def C4wTable : ConditionalProbabilityTable :=
  { parent_levels := [], parents := [], levels := ["a", "b"],
    array := [[F.fin (1 / 2), F.fin (1 / 2)]],
    cumsum_array := [[F.fin (1 / 2), F.fin 1]], _scaled := true }

/-- Witness for C4: with a draw of 3/5, the first cumulative entry
exceeding it is index 1. -/
theorem C4_witness :
    ∃ out, C4wTable.sample [[]] ⟨fun _ => 3 / 5, 0⟩ =
        .ok (out, Rng.advance ⟨fun _ => 3 / 5, 0⟩ 1) ∧
      out[0]? = some (([F.fin (1 / 2), F.fin 1] : List F).findIdx
        (fun p => F.qlt ((3 : ℚ) / 5) p)) :=
  C4_sample_first_exceed C4wTable [[]] ⟨fun _ => 3 / 5, 0⟩ rfl
    [[]] (by with_unfolding_all decide)
    (by with_unfolding_all decide)
    0 [] (by with_unfolding_all decide)
    [F.fin (1 / 2), F.fin 1] (by with_unfolding_all decide)
    (by with_unfolding_all decide)

/-- C8: `ConditionalProbabilityDistribution.sample` returns one fresh
normal draw per dataset row (`mean + std * z` over the generator stream at
positions `rng.pos + i`, cursor advanced by the row count, so successive
calls draw anew) when the model has no parents, and otherwise the per-row
dot product of the parent columns with the weight array plus that same
per-row noise. -/
theorem C8_cpd_sample (m : ConditionalProbabilityDistribution)
    (data : List (List ℚ)) (rng : Rng) :
    (m.parents = [] →
      m.sample data rng = .ok ((List.range data.length).map
        (fun i => m.mean + m.std * rng.stream (rng.pos + i)),
        rng.advance data.length)) ∧
    (∀ pvs, m.parents ≠ [] →
      data.mapM (fun drow => m.parents.mapM (fun p => drow[p]?)) = some pvs →
      m.array.length = m.parents.length →
      m.sample data rng = .ok (List.zipWith
        (fun pv ns => listDot pv m.array + ns) pvs
        ((List.range data.length).map
          (fun i => m.mean + m.std * rng.stream (rng.pos + i))),
        rng.advance data.length)) := by
  constructor
  · intro h
    simp [ConditionalProbabilityDistribution.sample, h]
  · intro pvs hne hpvs harr
    have hlen0 : m.parents.length ≠ 0 := by
      simpa using hne
    unfold ConditionalProbabilityDistribution.sample
    rw [if_neg hlen0]
    split
    · next heq =>
        rw [hpvs] at heq
        exact Option.noConfusion heq
    · next pvs2 heq =>
        rw [hpvs] at heq
        injection heq with heq2
        subst heq2
        rw [if_pos harr]

/-- Witness model for C8: one parent with weight 3, mean 1, std 2. -/
def C8wModel : ConditionalProbabilityDistribution :=
  { mean := 1, std := 2, parents := [0], array := [3] }

/-- Witness for C8 on a one-row dataset with parent value 4 and a zero
stream: output 3 * 4 + (1 + 2 * 0) = 13. -/
theorem C8_witness :
    C8wModel.sample [[4]] ⟨fun _ => 0, 0⟩ = .ok (List.zipWith
      (fun pv ns => listDot pv C8wModel.array + ns) [[4]]
      ((List.range ([[(4 : ℚ)]] : List (List ℚ)).length).map
        (fun i => C8wModel.mean +
          C8wModel.std * Rng.stream ⟨fun _ => 0, 0⟩ (Rng.pos ⟨fun _ => 0, 0⟩ + i))),
      Rng.advance ⟨fun _ => 0, 0⟩ 1) :=
  (C8_cpd_sample C8wModel [[4]] ⟨fun _ => 0, 0⟩).2 [[4]]
    (by decide) (by with_unfolding_all decide) rfl

lemma listDot_replicate (pv : List ℚ) (c : ℚ) :
    listDot pv (List.replicate pv.length c) = c * pv.sum := by
  induction pv with
  | nil => simp [listDot]
  | cons x xs ih =>
      simp only [listDot, List.length_cons, List.replicate_succ,
        List.zip_cons_cons, List.map_cons, List.sum_cons] at ih ⊢
      rw [ih]
      ring

lemma mapM_const_some {A B : Type} (l : List A) (b : B) :
    l.mapM (fun _ => (some b : Option B)) = some (l.map (fun _ => b)) := by
  induction l with
  | nil => rfl
  | cons x xs ih =>
      rw [List.mapM_cons, ih]
      rfl

lemma zipWith_map_right {A B C : Type} (l : List A) (g : A → B → B) (a : B)
    (l2 : List C) (h : l.length = l2.length) :
    List.zipWith g l (l2.map (fun _ => a)) = l.map (fun x => g x a) := by
  induction l generalizing l2 with
  | nil => simp
  | cons x xs ih =>
      cases l2 with
      | nil => simp at h
      | cons y ys =>
          simp only [List.map_cons, List.zipWith_cons_cons, List.map]
          rw [ih ys (by simpa using h)]

/-- C9 (amended): with the noise standard deviation set to 0 and every
weight equal to a constant `c`, `sample` is deterministic — independent of
the generator stream — and returns, for each row, `c` times the sum of
that row's parent values plus the model's mean.  It reproduces the
constant itself only when the mean is 0 and the parent values of the row
sum to 1; `C9_counterexample` refutes the original unconditional claim. -/
theorem C9_zero_std_deterministic (m : ConditionalProbabilityDistribution)
    (data : List (List ℚ)) (rng : Rng) (c : ℚ)
    (hstd : m.std = 0)
    (harr : m.array = List.replicate m.parents.length c)
    (pvs : List (List ℚ))
    (hpvs : data.mapM (fun drow => m.parents.mapM (fun p => drow[p]?)) = some pvs)
    (hrows : ∀ pv ∈ pvs, pv.length = m.parents.length) :
    (m.sample data rng).toOption.map Prod.fst =
      some (pvs.map (fun pv => c * pv.sum + m.mean)) := by
  have hnlen : pvs.length = data.length := opt_mapM_length _ data pvs hpvs
  have hnoise : (List.range data.length).map
      (fun i => m.mean + m.std * rng.stream (rng.pos + i)) =
      (List.range data.length).map (fun _ => m.mean) := by
    simp [hstd]
  rcases eq_or_ne m.parents [] with hp | hp
  · have h1 := (C8_cpd_sample m data rng).1 hp
    rw [h1]
    show some ((List.range data.length).map
      (fun i => m.mean + m.std * rng.stream (rng.pos + i))) = _
    rw [hnoise]
    have hpvs2 : pvs = data.map (fun _ => ([] : List ℚ)) := by
      rw [hp] at hpvs
      simp only [List.mapM_nil, pure] at hpvs
      rw [mapM_const_some] at hpvs
      exact (Option.some.inj hpvs).symm
    rw [hpvs2, List.map_map]
    refine congrArg some ?_
    conv_lhs => rw [List.map_const', List.length_range]
    have hfn : ((fun pv => c * pv.sum + m.mean) ∘ (fun (_ : List ℚ) => ([] : List ℚ))) =
        (fun _ => m.mean) := by
      funext x
      simp
    rw [hfn, List.map_const']
  · have h2 := (C8_cpd_sample m data rng).2 pvs hp hpvs
      (by rw [harr]; simp)
    rw [h2, hnoise]
    have hz : List.zipWith (fun pv ns => listDot pv m.array + ns) pvs
        ((List.range data.length).map (fun _ => m.mean)) =
        pvs.map (fun pv => listDot pv m.array + m.mean) := by
      apply zipWith_map_right pvs _ m.mean
      rw [hnlen]
      simp
    rw [hz]
    show some (pvs.map (fun pv => listDot pv m.array + m.mean)) = _
    refine congrArg some (List.map_congr_left ?_)
    intro pv hpv
    rw [harr, ← hrows pv hpv, listDot_replicate]

/-- Witness model for C9: two parents, both weights 2, mean 5, std 0. -/
def C9wModel : ConditionalProbabilityDistribution :=
  { mean := 5, std := 0, parents := [0, 1], array := [2, 2] }

/-- Witness for C9 (amended) on a one-row dataset [3, 4]:
output 2 * (3 + 4) + 5 = 19, independent of the stream. -/
theorem C9_witness :
    (C9wModel.sample [[3, 4]] ⟨fun _ => 7, 0⟩).toOption.map Prod.fst =
      some (([[(3 : ℚ), 4]] : List (List ℚ)).map
        (fun pv => 2 * pv.sum + C9wModel.mean)) :=
  C9_zero_std_deterministic C9wModel [[3, 4]] ⟨fun _ => 7, 0⟩ 2 rfl rfl
    [[3, 4]] (by with_unfolding_all decide) (by with_unfolding_all decide)

/-- Counterexample model for C9: one parent with weight 2, std 0. -/
def C9cModel : ConditionalProbabilityDistribution :=
  { mean := 0, std := 0, parents := [0], array := [2] }

/-- C9 counterexample: all weights equal the constant 2 and std is 0, yet
on the dataset row [3] `sample` returns 6 = 2 * 3, not the constant 2 —
the claim that sample reproduces the constant for every row is false. -/
theorem C9_counterexample :
    (C9cModel.sample [[3]] ⟨fun _ => 0, 0⟩).toOption.map Prod.fst = some [6] ∧
      ¬ ((6 : ℚ) = 2) := by
  constructor
  · with_unfolding_all decide
  · with_unfolding_all decide

/-- Parent vertex for the C7 witness. -/
def C7parent : NodeV := ⟨0, "P", some ["x", "y", "z"]⟩

/-- Child vertex for the C7 witness. -/
def C7node : NodeV := ⟨1, "C", some ["u", "v"]⟩

/-- The table `ConditionalProbabilityTable.init C7node [C7parent]`
produces. -/
def C7wTable : ConditionalProbabilityTable :=
  { parent_levels := [["x", "y", "z"]], parents := [0], levels := ["u", "v"],
    array := List.replicate 3 (List.replicate 2 (F.fin 0)),
    cumsum_array := List.replicate 3 (List.replicate 2 (F.fin 0)),
    _scaled := false }

/-- Witness for C7: at a 3-level parent and a 2-level node, construction
succeeds and yields the zero-filled arrays with shape (3, 2). -/
theorem C7_witness :
    C7wTable.array = List.replicate
        (([C7parent].map (fun v => (v.levels.getD []).length)).prod)
        (List.replicate (C7node.levels.getD []).length (F.fin 0)) ∧
    C7wTable.cumsum_array = C7wTable.array ∧
    C7wTable.shape = ([C7parent].map (fun v => (v.levels.getD []).length)) ++
      [(C7node.levels.getD []).length] :=
  (C7_init_validation C7node [C7parent]).2 C7wTable (by rfl)


/-!
Binary codec (`baynet/utils/dag_io.py`).  `dag_to_buf` / `buf_to_dag` are
in the source; the igraph-backed `baynet.DAG` class (structure.py) and the
generated protobuf module `DAG_pb2` are not, so those two collaborators
are modelled from the spec (sections 3, 4.4, 6 and 7):
* the buffer is the section-6 list of per-node records, one `BufNode` per
  vertex; `SerializeToString`/`FromString` are treated as the identity
  (the record list stands for its wire form, and a float array's raw
  bytes stand for the list of its values);
* a DAG is an ordered vertex list (name, optional levels, optional
  parameter model) plus an ordered edge list of (source, target) names;
* `vertex.neighbors(mode="in")` lists the sources of the edges into the
  vertex, in edge insertion order;
* `DAG.add_edges` raises a lookup error when an endpoint name does not
  resolve (section 7).

numpy writability matters on the decode path: arrays carry an explicit
`writeable` flag because `np.frombuffer` over the buffer's `bytes`
(`dag_io.py` line 50) yields a read-only array (reshaping keeps it
read-only), and the in-place masked assignment opening
`rescale_probabilities` (`parameters.py` line 67) raises
`ValueError: assignment destination is read-only` on such an array —
numpy checks writability before evaluating the mask, so the call raises
for every decoded DISCRETE record.
-/

/-- A numpy array as the codec sees it: shape, flat row-major values
(standing for the raw 8-byte floats of `tobytes`), and the numpy
WRITEABLE flag. -/
structure ArrayT where
  shape : List ℕ
  flat : List F
  writeable : Bool
deriving DecidableEq, Repr

/-- Parameter model attached to a DAG vertex — exactly the fields the
codec reads (`isinstance` kind, `array`) and writes (`levels`, `array`,
`cumsum_array`, scaled flag, `parents`; a decoded gaussian gets the bare
defaults mean 0, std 1). -/
inductive PModel where
  | cpt (levels : List String) (array : ArrayT) (cumsum : ArrayT)
      (scaled : Bool) (parents : List String)
  | gauss (mean : ℚ) (std : ℚ) (array : ArrayT) (parents : List String)
deriving DecidableEq, Repr

/-- The `array` attribute of either parameter-model kind. -/
def PModel.arrayOf : PModel → ArrayT
  | .cpt _ a _ _ _ => a
  | .gauss _ _ a _ => a

/-- `cpd.parents = list(buf_node.parents)` (`dag_io.py` line 44). -/
def PModel.withParents : PModel → List String → PModel
  | .cpt ls a c s _, ps => .cpt ls a c s ps
  | .gauss mn sd a _, ps => .gauss mn sd a ps

/-- Modelled from the spec (section 3): a graph vertex with unique name,
optional `levels` attribute and optional attached parameter model. -/
structure DagNode where
  name : String
  levels : Option (List String)
  cpd : Option PModel
deriving DecidableEq, Repr

/-- Modelled from the spec (section 3): ordered vertices plus ordered
directed edges given by endpoint names. -/
structure Dag where
  vs : List DagNode
  es : List (String × String)
deriving DecidableEq, Repr

/-- Modelled from the spec (section 4.4): the ordered parent-name list of
a vertex, derived from incoming edges (`neighbors(mode="in")`). -/
def inNeighborNames (dag : Dag) (name : String) : List String :=
  (dag.es.filter (fun e => e.2 = name)).map Prod.fst

/-- One section-6 protobuf Node record: name, ordered parent names,
variable_type (0 unspecified, 1 DISCRETE, 2 CONTINUOUS), levels, and the
parameter array's shape and raw values. -/
structure BufNode where
  name : String
  parents : List String
  variable_type : ℕ
  levels : List String
  shape : List ℕ
  flat : List F
deriving DecidableEq, Repr

/-- `dag_to_buf` (`dag_io.py` lines 9-24): one record per vertex in graph
order; the variable type is set only when a parameter model is attached
(proto default 0 otherwise), levels are taken from the vertex's `levels`
attribute for discrete nodes (iterating a missing `levels` raises), and
the model's array shape and raw values (`tobytes`, which copies and so
works on arrays of either writability) are emitted for either kind. -/
def dag_to_buf (dag : Dag) : Except String (List BufNode) :=
  dag.vs.mapM (fun v =>
    match v.cpd with
    | none =>
        .ok { name := v.name, parents := inNeighborNames dag v.name,
              variable_type := 0, levels := [], shape := [], flat := [] }
    | some (.cpt _ arr _ _ _) =>
        match v.levels with
        | none => .error "TypeError: NoneType object is not iterable"
        | some ls =>
            .ok { name := v.name, parents := inNeighborNames dag v.name,
                  variable_type := 1, levels := ls,
                  shape := arr.shape, flat := arr.flat }
    | some (.gauss _ _ arr _) =>
        .ok { name := v.name, parents := inNeighborNames dag v.name,
              variable_type := 2, levels := [],
              shape := arr.shape, flat := arr.flat })

/-- `buf_to_array` (`dag_io.py` lines 49-53): `np.frombuffer` yields a
one-dimensional READ-ONLY array (shape [length]); a nonempty array is
reshaped to the recorded shape — still a read-only view — and the
reshape raises when the sizes disagree. -/
def buf_to_array (shape : List ℕ) (flat : List F) : Except String ArrayT :=
  if flat.length = 0 then .ok ⟨[flat.length], flat, false⟩
  else if shape.prod = flat.length then .ok ⟨shape, flat, false⟩
  else .error "ValueError: cannot reshape array"

/-- The value `buf_to_array` returns whenever it succeeds: a read-only
array. -/
def bufArrayVal (shape : List ℕ) (flat : List F) : ArrayT :=
  if flat.length = 0 then ⟨[flat.length], flat, false⟩
  else ⟨shape, flat, false⟩

/-- Split a flat row-major tensor into its last-axis rows of width `n`. -/
def chunkRows (n : ℕ) (l : List F) : List (List F) :=
  if h : n = 0 ∨ l = [] then []
  else (l.take n) :: chunkRows n (l.drop n)
termination_by l.length
decreasing_by
  simp only [List.length_drop]
  have hn : 0 < n := Nat.pos_of_ne_zero (fun h0 => h (Or.inl h0))
  have hl : 0 < l.length := List.length_pos.mpr (fun h0 => h (Or.inr h0))
  omega

/-- The last-axis rows of an array (width = last shape entry). -/
def ArrayT.lastAxisRows (a : ArrayT) : List (List F) :=
  chunkRows (a.shape.getLastD 1) a.flat

/-- `cpd.rescale_probabilities()` invoked on a decoded array (`dag_io.py`
line 40), at the array level.  Its first statement is the in-place masked
assignment `self.array[self.array.sum(axis=-1) == 0] = 1`
(`parameters.py` line 67); numpy refuses any such assignment to a
non-writeable destination (before evaluating the mask), so on a read-only
array the call raises.  On a writable array it is the pure row-wise
rescale, producing the rescaled `array` and the recomputed
`cumsum_array`. -/
def rescaleDecodedArray (a : ArrayT) : Except String (ArrayT × ArrayT) :=
  if a.writeable then
    .ok (⟨a.shape, (rescale_rows a.lastAxisRows).flatten, true⟩,
         ⟨a.shape, (cumsum_rows (rescale_rows a.lastAxisRows)).flatten, true⟩)
  else .error "ValueError: assignment destination is read-only"

/-- A node of the graph being decoded; the attached model is a reference
(index) into the store of parameter-model objects created so far, since
`buf_to_dag` can attach one object to several nodes. -/
structure DNode where
  name : String
  levels : Option (List String)
  cpdIdx : Option ℕ
deriving DecidableEq, Repr

/-- State of the decode loop: the vertices, the edges added so far, the
parameter-model objects allocated so far, and which of them the local
variable `cpd` currently refers to (`none` before any assignment). -/
structure DecSt where
  nodes : List DNode
  es : List (String × String)
  store : List PModel
  last : Option ℕ
deriving Repr

/-- Modelled from the spec (section 7): `DAG.add_edges` resolves both
endpoint names and raises a lookup error when one is missing. -/
def addEdges (names : List String) (cur new : List (String × String)) :
    Except String (List (String × String)) :=
  if new.all (fun e => names.contains e.1 && names.contains e.2) then
    .ok (cur ++ new)
  else .error "LookupError: no vertex with that name"

/-- `dag.get_node(name)` followed by attribute assignment: update the
(first and, names being unique, only) vertex with the given name. -/
def updNode (nodes : List DNode) (name : String) (f : DNode → DNode) :
    List DNode :=
  nodes.map (fun n => if n.name = name then f n else n)

/-- One iteration of the decode loop (`dag_io.py` lines 31-45): add this
record's parent edges; on DISCRETE build a fresh table — set levels,
reshape the raw bytes, then call `rescale_probabilities`, which RAISES on
the read-only decoded array; on CONTINUOUS build a fresh gaussian
(defaults mean 0, std 1) around the reshaped array; otherwise reuse
whatever object the loop variable `cpd` still holds — an unbound-variable
error if there is none.  In every completing case, set the object's
`parents` to this record's parent names and attach the object to this
node. -/
def decodeStep (st : DecSt) (b : BufNode) : Except String DecSt :=
  match addEdges (st.nodes.map DNode.name) st.es
      (b.parents.map (fun p => (p, b.name))) with
  | .error e => .error e
  | .ok es2 =>
      if b.variable_type = 1 then
        match buf_to_array b.shape b.flat with
        | .error e => .error e
        | .ok arr =>
            match rescaleDecodedArray arr with
            | .error e => .error e
            | .ok pair =>
                .ok { nodes := updNode st.nodes b.name
                        (fun n => { n with levels := some b.levels,
                                           cpdIdx := some st.store.length }),
                      es := es2,
                      store := st.store ++
                        [PModel.cpt b.levels pair.1 pair.2 true b.parents],
                      last := some st.store.length }
      else if b.variable_type = 2 then
        match buf_to_array b.shape b.flat with
        | .error e => .error e
        | .ok arr =>
            .ok { nodes := updNode st.nodes b.name
                    (fun n => { n with cpdIdx := some st.store.length }),
                  es := es2,
                  store := st.store ++ [PModel.gauss 0 1 arr b.parents],
                  last := some st.store.length }
      else
        match st.last with
        | none =>
            .error "UnboundLocalError: local variable cpd referenced before assignment"
        | some i =>
            match st.store[i]? with
            | none => .error "internal: dangling cpd reference"
            | some mprev =>
                .ok { nodes := updNode st.nodes b.name
                        (fun n => { n with cpdIdx := some i }),
                      es := es2,
                      store := st.store.set i (mprev.withParents b.parents),
                      last := some i }

/-- `buf_to_dag` (`dag_io.py` lines 27-46): create all vertices from the
record names, run the decode loop over the records, then read each
vertex's attached object out of the store. -/
def buf_to_dag (buf : List BufNode) : Except String Dag :=
  match buf.foldlM decodeStep
      { nodes := buf.map (fun b => ⟨b.name, none, none⟩),
        es := [], store := [], last := none } with
  | .error e => .error e
  | .ok st =>
      .ok { vs := st.nodes.map (fun n =>
              ⟨n.name, n.levels, n.cpdIdx.bind (fun i => st.store[i]?)⟩),
            es := st.es }

lemma addEdges_ok (names : List String) (cur new : List (String × String))
    (h : ∀ e ∈ new, e.1 ∈ names ∧ e.2 ∈ names) :
    addEdges names cur new = .ok (cur ++ new) := by
  unfold addEdges
  rw [if_pos]
  rw [List.all_eq_true]
  intro e he
  have h2 := h e he
  simp only [Bool.and_eq_true]
  exact ⟨by simpa using h2.1, by simpa using h2.2⟩

lemma buf_to_array_ok (shape : List ℕ) (flat : List F)
    (h : flat = [] ∨ shape.prod = flat.length) :
    buf_to_array shape flat = .ok (bufArrayVal shape flat) := by
  unfold buf_to_array bufArrayVal
  by_cases h0 : flat.length = 0
  · rw [if_pos h0, if_pos h0]
  · rw [if_neg h0, if_neg h0]
    rcases h with h | h
    · exact absurd (by rw [h]; rfl) h0
    · rw [if_pos h]

lemma updNode_names (nodes : List DNode) (nm : String) (f : DNode → DNode)
    (hf : ∀ n, (f n).name = n.name) :
    (updNode nodes nm f).map DNode.name = nodes.map DNode.name := by
  unfold updNode
  rw [List.map_map]
  apply List.map_congr_left
  intro n _
  by_cases hn : n.name = nm
  · simp [hn, hf]
  · simp [hn]

/-- Per-record side conditions for decoding: parent names resolve, the
record's own name is a vertex, and the array is reshape-compatible. -/
def bufRecOk (names : List String) (b : BufNode) : Prop :=
  (∀ p ∈ b.parents, p ∈ names) ∧ b.name ∈ names ∧
    (b.flat = [] ∨ b.shape.prod = b.flat.length)

instance (names : List String) (b : BufNode) : Decidable (bufRecOk names b) := by
  unfold bufRecOk
  infer_instance

lemma bufArrayVal_not_writeable (shape : List ℕ) (flat : List F) :
    (bufArrayVal shape flat).writeable = false := by
  unfold bufArrayVal
  split <;> rfl

lemma rescaleDecodedArray_err (a : ArrayT) (h : a.writeable = false) :
    rescaleDecodedArray a =
      .error "ValueError: assignment destination is read-only" := by
  unfold rescaleDecodedArray
  rw [h]
  rfl

/-- Decoding a DISCRETE record always raises: `buf_to_array` returns a
read-only `frombuffer` view, and `rescale_probabilities` on it raises
the read-only ValueError before touching any data. -/
lemma decodeStep_err_discrete (st : DecSt) (b : BufNode)
    (names : List String)
    (hN : st.nodes.map DNode.name = names)
    (hb : bufRecOk names b)
    (ht : b.variable_type = 1) :
    decodeStep st b =
      .error "ValueError: assignment destination is read-only" := by
  obtain ⟨hpar, hname, hsh⟩ := hb
  have hedges := addEdges_ok (st.nodes.map DNode.name) st.es
    (b.parents.map (fun p => (p, b.name)))
    (by
      intro e he
      obtain ⟨p, hp, rfl⟩ := List.mem_map.mp he
      rw [hN]
      exact ⟨hpar p hp, hname⟩)
  have harr := buf_to_array_ok b.shape b.flat hsh
  unfold decodeStep
  split
  · next heq =>
      rw [hedges] at heq
      exact absurd heq (by simp)
  · next es2 heq =>
      rw [hedges] at heq
      injection heq with heq2
      subst heq2
      rw [ht, if_pos rfl]
      split
      · next heq3 =>
          rw [harr] at heq3
          exact absurd heq3 (by simp)
      · next arr heq3 =>
          rw [harr] at heq3
          injection heq3 with heq4
          subst heq4
          split
          · next e heq5 =>
              rw [rescaleDecodedArray_err _
                (bufArrayVal_not_writeable b.shape b.flat)] at heq5
              injection heq5 with heq6
              rw [← heq6]
          · next pair heq5 =>
              rw [rescaleDecodedArray_err _
                (bufArrayVal_not_writeable b.shape b.flat)] at heq5
              exact absurd heq5 (by simp)

lemma decodeStep_ok_continuous (st : DecSt) (b : BufNode)
    (names : List String)
    (hN : st.nodes.map DNode.name = names)
    (hb : bufRecOk names b)
    (ht : b.variable_type = 2) :
    ∃ st', decodeStep st b = .ok st' ∧
      st'.nodes.map DNode.name = names ∧
      st'.last = some st.store.length ∧
      st.store.length < st'.store.length := by
  obtain ⟨hpar, hname, hsh⟩ := hb
  have hedges := addEdges_ok (st.nodes.map DNode.name) st.es
    (b.parents.map (fun p => (p, b.name)))
    (by
      intro e he
      obtain ⟨p, hp, rfl⟩ := List.mem_map.mp he
      rw [hN]
      exact ⟨hpar p hp, hname⟩)
  have harr := buf_to_array_ok b.shape b.flat hsh
  refine ⟨{ nodes := updNode st.nodes b.name
              (fun n => { n with cpdIdx := some st.store.length }),
            es := st.es ++ b.parents.map (fun p => (p, b.name)),
            store := st.store ++
              [PModel.gauss 0 1 (bufArrayVal b.shape b.flat) b.parents],
            last := some st.store.length }, ?_, ?_, rfl, by simp⟩
  · unfold decodeStep
    split
    · next heq =>
        rw [hedges] at heq
        exact absurd heq (by simp)
    · next es2 heq =>
        rw [hedges] at heq
        injection heq with heq2
        subst heq2
        rw [ht]
        rw [if_neg (by decide), if_pos rfl]
        split
        · next heq3 =>
            rw [harr] at heq3
            exact absurd heq3 (by simp)
        · next arr heq3 =>
            rw [harr] at heq3
            injection heq3 with heq4
            subst heq4
            rfl
  · exact (updNode_names st.nodes b.name
      (fun n => { n with cpdIdx := some st.store.length })
      (fun n => rfl)).trans hN

lemma decodeStep_err_unbound (st : DecSt) (b : BufNode)
    (names : List String)
    (hN : st.nodes.map DNode.name = names)
    (hb : bufRecOk names b)
    (ht1 : ¬ b.variable_type = 1) (ht2 : ¬ b.variable_type = 2)
    (hl : st.last = none) :
    decodeStep st b =
      .error "UnboundLocalError: local variable cpd referenced before assignment" := by
  obtain ⟨hpar, hname, _⟩ := hb
  have hedges := addEdges_ok (st.nodes.map DNode.name) st.es
    (b.parents.map (fun p => (p, b.name)))
    (by
      intro e he
      obtain ⟨p, hp, rfl⟩ := List.mem_map.mp he
      rw [hN]
      exact ⟨hpar p hp, hname⟩)
  unfold decodeStep
  split
  · next heq =>
      rw [hedges] at heq
      exact absurd heq (by simp)
  · next es2 heq =>
      rw [hedges] at heq
      injection heq with heq2
      subst heq2
      rw [if_neg ht1, if_neg ht2, hl]

lemma decodeStep_ok_reuse (st : DecSt) (b : BufNode) (names : List String)
    (hN : st.nodes.map DNode.name = names)
    (hb : bufRecOk names b)
    (ht1 : ¬ b.variable_type = 1)
    (i : ℕ) (hi : st.last = some i) (hilt : i < st.store.length) :
    ∃ st', decodeStep st b = .ok st' ∧
      st'.nodes.map DNode.name = names ∧
      ∃ j, st'.last = some j ∧ j < st'.store.length := by
  by_cases ht2 : b.variable_type = 2
  · obtain ⟨st', h1, h2, h3, h4⟩ := decodeStep_ok_continuous st b names hN hb ht2
    exact ⟨st', h1, h2, st.store.length, h3, h4⟩
  · obtain ⟨hpar, hname, _⟩ := hb
    have hedges := addEdges_ok (st.nodes.map DNode.name) st.es
      (b.parents.map (fun p => (p, b.name)))
      (by
        intro e he
        obtain ⟨p, hp, rfl⟩ := List.mem_map.mp he
        rw [hN]
        exact ⟨hpar p hp, hname⟩)
    have hstore : st.store[i]? = some st.store[i] :=
      List.getElem?_eq_getElem hilt
    refine ⟨{ nodes := updNode st.nodes b.name
                (fun n => { n with cpdIdx := some i }),
              es := st.es ++ b.parents.map (fun p => (p, b.name)),
              store := st.store.set i (st.store[i].withParents b.parents),
              last := some i }, ?_, ?_, i, rfl, by simpa using hilt⟩
    · unfold decodeStep
      split
      · next heq =>
          rw [hedges] at heq
          exact absurd heq (by simp)
      · next es2 heq =>
          rw [hedges] at heq
          injection heq with heq2
          subst heq2
          rw [if_neg ht1, if_neg ht2]
          split
          · next heq3 =>
              rw [hi] at heq3
              exact Option.noConfusion heq3
          · next j heq3 =>
              rw [hi] at heq3
              injection heq3 with heq4
              subst heq4
              split
              · next heq5 =>
                  rw [hstore] at heq5
                  exact Option.noConfusion heq5
              · next mprev heq5 =>
                  rw [hstore] at heq5
                  injection heq5 with heq6
                  subst heq6
                  rfl
    · exact (updNode_names st.nodes b.name
        (fun n => { n with cpdIdx := some i })
        (fun n => rfl)).trans hN

lemma decode_fold_ok (names : List String) :
    ∀ (l : List BufNode) (st : DecSt),
      st.nodes.map DNode.name = names →
      (∃ i, st.last = some i ∧ i < st.store.length) →
      (∀ b ∈ l, bufRecOk names b) →
      (∀ b ∈ l, ¬ b.variable_type = 1) →
      ∃ st', l.foldlM decodeStep st = .ok st' := by
  intro l
  induction l with
  | nil =>
      intro st _ _ _ _
      exact ⟨st, rfl⟩
  | cons b bs ih =>
      intro st hN hlast hall hno1
      obtain ⟨i, hi, hilt⟩ := hlast
      obtain ⟨st1, hstep, hN1, hlast1⟩ :=
        decodeStep_ok_reuse st b names hN (hall b (by simp))
          (hno1 b (by simp)) i hi hilt
      obtain ⟨st2, hfold⟩ := ih st1 hN1 hlast1
        (fun x hx => hall x (by simp [hx]))
        (fun x hx => hno1 x (by simp [hx]))
      refine ⟨st2, ?_⟩
      rw [List.foldlM_cons, hstep]
      show bs.foldlM decodeStep st1 = .ok st2
      exact hfold

lemma decode_fold_err (names : List String) :
    ∀ (l : List BufNode) (st : DecSt),
      st.nodes.map DNode.name = names →
      (∀ i, st.last = some i → i < st.store.length) →
      (∀ b ∈ l, bufRecOk names b) →
      (∃ b ∈ l, b.variable_type = 1) →
      (l.foldlM decodeStep st).isOk = false := by
  intro l
  induction l with
  | nil =>
      intro st _ _ _ hex
      obtain ⟨b, hb, _⟩ := hex
      exact absurd hb (by simp)
  | cons b bs ih =>
      intro st hN hlast hall hex
      by_cases ht : b.variable_type = 1
      · rw [List.foldlM_cons,
          decodeStep_err_discrete st b names hN (hall b (by simp)) ht]
        rfl
      · have hex2 : ∃ b2 ∈ bs, b2.variable_type = 1 := by
          obtain ⟨b2, hb2, hb2t⟩ := hex
          cases List.mem_cons.mp hb2 with
          | inl h => exact absurd (h ▸ hb2t) ht
          | inr h => exact ⟨b2, h, hb2t⟩
        by_cases ht2 : b.variable_type = 2
        · obtain ⟨st1, hstep, hN1, hlast1, hlt1⟩ :=
            decodeStep_ok_continuous st b names hN (hall b (by simp)) ht2
          rw [List.foldlM_cons, hstep]
          show (bs.foldlM decodeStep st1).isOk = false
          refine ih st1 hN1 ?_ (fun x hx => hall x (by simp [hx])) hex2
          intro j hj
          rw [hlast1] at hj
          injection hj with hj2
          subst hj2
          exact hlt1
        · cases hcl : st.last with
          | none =>
              rw [List.foldlM_cons,
                decodeStep_err_unbound st b names hN (hall b (by simp)) ht ht2 hcl]
              rfl
          | some i =>
              have hilt := hlast i hcl
              obtain ⟨st1, hstep, hN1, j, hj, hjlt⟩ :=
                decodeStep_ok_reuse st b names hN (hall b (by simp)) ht i hcl hilt
              rw [List.foldlM_cons, hstep]
              show (bs.foldlM decodeStep st1).isOk = false
              refine ih st1 hN1 ?_ (fun x hx => hall x (by simp [hx])) hex2
              intro k hk
              rw [hj] at hk
              injection hk with hk2
              subst hk2
              exact hjlt

lemma buf_to_dag_isOk (buf : List BufNode) :
    (buf_to_dag buf).isOk =
      (buf.foldlM decodeStep
        { nodes := buf.map (fun b => (⟨b.name, none, none⟩ : DNode)),
          es := [], store := [], last := none }).isOk := by
  unfold buf_to_dag
  split
  · next e heq => rw [heq]; rfl
  · next st heq => rw [heq]; rfl

/-- C10 (amended): given resolvable names and reshape-compatible arrays,
`buf_to_dag` succeeds if and only if no record is DISCRETE and the first
record of a nonempty buffer is CONTINUOUS.  Every DISCRETE record raises
the read-only ValueError (`rescale_probabilities` on the `frombuffer`
view); a model-less FIRST record trips an unbound-local error on the
loop variable `cpd`; but a LATER model-less record decodes without
error, silently reusing (and re-attaching) the previous record's
parameter object — so decode does not reject every buffer containing a
model-less node, refuting the original claim (see
`C10_counterexample`). -/
theorem C10_decode_error_iff (buf : List BufNode)
    (hrec : ∀ b ∈ buf, bufRecOk (buf.map BufNode.name) b) :
    (buf_to_dag buf).isOk = true ↔
      ((∀ b ∈ buf, ¬ b.variable_type = 1) ∧
        ∀ b0 ∈ buf.head?, b0.variable_type = 2) := by
  cases buf with
  | nil =>
      apply iff_of_true
      · rfl
      · exact ⟨fun b hb => absurd hb (by simp),
          fun b0 hb0 => absurd hb0 (by simp)⟩
  | cons b bs =>
      have hNinit : (((b :: bs).map (fun x => (⟨x.name, none, none⟩ : DNode))).map
          DNode.name) = (b :: bs).map BufNode.name := by
        rw [List.map_map]
        rfl
      constructor
      · intro hok
        rw [buf_to_dag_isOk] at hok
        refine ⟨?_, ?_⟩
        · intro x hx hx1
          have herr := decode_fold_err ((b :: bs).map BufNode.name) (b :: bs)
            { nodes := (b :: bs).map (fun y => (⟨y.name, none, none⟩ : DNode)),
              es := [], store := [], last := none }
            hNinit (fun i hi => Option.noConfusion hi) hrec ⟨x, hx, hx1⟩
          rw [hok] at herr
          exact Bool.noConfusion herr
        · intro b0 hb0
          have hb0b : b = b0 := by simpa using hb0
          subst hb0b
          by_contra ht2
          by_cases ht1 : b.variable_type = 1
          · have herr := decode_fold_err ((b :: bs).map BufNode.name) (b :: bs)
              { nodes := (b :: bs).map (fun y => (⟨y.name, none, none⟩ : DNode)),
                es := [], store := [], last := none }
              hNinit (fun i hi => Option.noConfusion hi) hrec ⟨b, by simp, ht1⟩
            rw [hok] at herr
            exact Bool.noConfusion herr
          · have hstep := decodeStep_err_unbound
              { nodes := (b :: bs).map (fun y => (⟨y.name, none, none⟩ : DNode)),
                es := [], store := [], last := none } b
              ((b :: bs).map BufNode.name) hNinit (hrec b (by simp)) ht1 ht2 rfl
            rw [List.foldlM_cons, hstep] at hok
            exact Bool.noConfusion (show false = true from hok)
      · intro hP
        obtain ⟨hno1, hhead⟩ := hP
        have ht2 : b.variable_type = 2 := hhead b rfl
        obtain ⟨st1, hstep, hN1, hlast1, hlt1⟩ := decodeStep_ok_continuous
          { nodes := (b :: bs).map (fun x => (⟨x.name, none, none⟩ : DNode)),
            es := [], store := [], last := none } b
          ((b :: bs).map BufNode.name) hNinit (hrec b (by simp)) ht2
        obtain ⟨st2, hfold⟩ := decode_fold_ok ((b :: bs).map BufNode.name) bs st1
          hN1 ⟨0, hlast1, hlt1⟩ (fun x hx => hrec x (by simp [hx]))
          (fun x hx => hno1 x (by simp [hx]))
        rw [buf_to_dag_isOk, List.foldlM_cons, hstep]
        show (bs.foldlM decodeStep st1).isOk = true
        rw [hfold]
        rfl

/-- Buffer for the C10 counterexample: a CONTINUOUS record followed by a
record with no parameter model (variable_type 0). -/
def C10cBuf : List BufNode :=
  [{ name := "A", parents := [], variable_type := 2, levels := [],
     shape := [0], flat := [] },
   { name := "B", parents := [], variable_type := 0, levels := [],
     shape := [], flat := [] }]

/-- C10 counterexample: the second record of `C10cBuf` carries no
parameter model (variable_type 0), yet decoding succeeds — the loop
variable `cpd` silently keeps the previous record's object — refuting
the claim that `buf_to_dag` raises for every buffer containing such a
node. -/
theorem C10_counterexample :
    (C10cBuf.map BufNode.variable_type).contains 0 = true ∧
    (buf_to_dag C10cBuf).isOk = true := by
  with_unfolding_all decide

/-- Buffer for the C10 witness: two CONTINUOUS records, the second with a
resolvable parent. -/
def C10wBuf : List BufNode :=
  [{ name := "A", parents := [], variable_type := 2, levels := [],
     shape := [0], flat := [] },
   { name := "B", parents := ["A"], variable_type := 2, levels := [],
     shape := [1], flat := [F.fin 5] }]

/-- Witness for C10 (amended) at a concrete two-record all-continuous
buffer: no DISCRETE record and a CONTINUOUS first record, so decoding
succeeds. -/
theorem C10_witness : (buf_to_dag C10wBuf).isOk = true :=
  (C10_decode_error_iff C10wBuf (by with_unfolding_all decide)).mpr
    ⟨by with_unfolding_all decide, fun b0 hb0 => by
      have hb : some (⟨"A", [], 2, [], [0], []⟩ : BufNode) = some b0 := hb0
      injection hb with hb2
      rw [← hb2]⟩

/-- The record `dag_to_buf` emits for a vertex, as a total function (the
encoder only fails when a discrete vertex lacks levels, which the
round-trip hypotheses exclude). -/
def encNodeF (dag : Dag) (v : DagNode) : BufNode :=
  match v.cpd with
  | none =>
      { name := v.name, parents := inNeighborNames dag v.name,
        variable_type := 0, levels := [], shape := [], flat := [] }
  | some (.cpt _ arr _ _ _) =>
      { name := v.name, parents := inNeighborNames dag v.name,
        variable_type := 1, levels := v.levels.getD [],
        shape := arr.shape, flat := arr.flat }
  | some (.gauss _ _ arr _) =>
      { name := v.name, parents := inNeighborNames dag v.name,
        variable_type := 2, levels := [],
        shape := arr.shape, flat := arr.flat }

/-- The `levels` attribute a vertex ends up with after decoding a
completed loop iteration: set only on the DISCRETE branch, which (the
decoded array being read-only) never completes — so on any state the
loop actually reaches, this is `none`. -/
def decLevelsF (v : DagNode) : Option (List String) :=
  match v.cpd with
  | some (.cpt _ _ _ _ _) => some (v.levels.getD [])
  | _ => none

/-- The parameter-model object `buf_to_dag` builds for a vertex's record
on the branch that completes: for a continuous node, a bare gaussian
(mean 0, std 1) around the reshaped read-only array, with the record's
parent names.  The DISCRETE branch raises before the object is attached,
so the `cpt` and `none` arms are placeholders no reachable decode state
uses. -/
def decModel (dag : Dag) (v : DagNode) : PModel :=
  match v.cpd with
  | some (.gauss _ _ arr _) =>
      .gauss 0 1 (bufArrayVal arr.shape arr.flat) (inNeighborNames dag v.name)
  | _ => .gauss 0 1 ⟨[0], [], false⟩ []

/-- The decoded vertices for a processed prefix, with store indices
starting at `j`. -/
def decNodes (j : ℕ) : List DagNode → List DNode
  | [] => []
  | v :: vs => ⟨v.name, decLevelsF v, some j⟩ :: decNodes (j + 1) vs

/-- Well-formedness of a vertex for the round trip: it carries a
CONTINUOUS model, no levels attribute, and a flat one-axis array.  A
discrete vertex is never well-formed here: decoding its record raises
the read-only ValueError (see `C1_counterexample`). -/
def wfNode (v : DagNode) : Bool :=
  match v.cpd with
  | some (.gauss _ _ arr _) =>
      decide (v.levels = none) && decide (arr.shape = [arr.flat.length])
  | _ => false

/-- Well-formed parameterized DAG for the round trip: every vertex is
well formed (all-continuous), every edge endpoint resolves to a vertex
name, and vertex names are unique. -/
def Dag.wf (dag : Dag) : Bool :=
  dag.vs.all wfNode &&
  dag.es.all (fun e => (dag.vs.map DagNode.name).contains e.1 &&
    (dag.vs.map DagNode.name).contains e.2) &&
  decide ((dag.vs.map DagNode.name).Nodup)

lemma encNodeF_name (dag : Dag) (v : DagNode) : (encNodeF dag v).name = v.name := by
  unfold encNodeF
  cases v.cpd with
  | none => rfl
  | some m => cases m <;> rfl

lemma encNodeF_parents (dag : Dag) (v : DagNode) :
    (encNodeF dag v).parents = inNeighborNames dag v.name := by
  unfold encNodeF
  cases v.cpd with
  | none => rfl
  | some m => cases m <;> rfl

lemma exc_mapM_ok {A B : Type} (f : A → Except String B) (g : A → B) :
    ∀ (l : List A), (∀ a ∈ l, f a = .ok (g a)) → l.mapM f = .ok (l.map g) := by
  intro l
  induction l with
  | nil => intro _; rfl
  | cons a as ih =>
      intro h
      rw [List.mapM_cons, h a (by simp), ih (fun x hx => h x (by simp [hx]))]
      rfl

/-- Under the well-formedness hypotheses, `dag_to_buf` succeeds and emits
exactly one `encNodeF` record per vertex, in order. -/
lemma dag_to_buf_ok (dag : Dag) (hwf : ∀ v ∈ dag.vs, wfNode v = true) :
    dag_to_buf dag = .ok (dag.vs.map (encNodeF dag)) := by
  apply exc_mapM_ok _ _ dag.vs
  intro v hv
  have h := hwf v hv
  unfold wfNode at h
  unfold encNodeF
  cases hc : v.cpd with
  | none => rw [hc] at h
  | some m =>
      cases m with
      | cpt ls arr c s p =>
          rw [hc] at h
          exact Bool.noConfusion (show false = true from h)
      | gauss mn sd arr p => rfl

lemma decNodes_names : ∀ (l : List DagNode) (j : ℕ),
    (decNodes j l).map DNode.name = l.map DagNode.name := by
  intro l
  induction l with
  | nil => intro j; rfl
  | cons v vs ih =>
      intro j
      show v.name :: (decNodes (j + 1) vs).map DNode.name = _
      rw [ih (j + 1)]
      rfl

lemma decNodes_append : ∀ (l1 l2 : List DagNode) (j : ℕ),
    decNodes j (l1 ++ l2) = decNodes j l1 ++ decNodes (j + l1.length) l2 := by
  intro l1
  induction l1 with
  | nil => intro l2 j; simp [decNodes]
  | cons v vs ih =>
      intro l2 j
      show (⟨v.name, decLevelsF v, some j⟩ : DNode) :: decNodes (j + 1) (vs ++ l2) = _
      rw [ih l2 (j + 1)]
      show _ = (⟨v.name, decLevelsF v, some j⟩ : DNode) ::
        (decNodes (j + 1) vs ++ decNodes (j + (v :: vs).length) l2)
      rw [show j + (v :: vs).length = j + 1 + vs.length from by
        rw [List.length_cons]
        omega]

lemma updNode_not_found (l : List DNode) (nm : String) (f : DNode → DNode)
    (h : ∀ n ∈ l, n.name ≠ nm) : updNode l nm f = l := by
  unfold updNode
  have h2 : ∀ n ∈ l, (if n.name = nm then f n else n) = n := by
    intro n hn
    rw [if_neg (h n hn)]
  rw [List.map_congr_left h2]
  exact List.map_id l

lemma updNode_split (A : List DNode) (x : DNode) (B : List DNode)
    (nm : String) (f : DNode → DNode)
    (hA : ∀ n ∈ A, n.name ≠ nm) (hB : ∀ n ∈ B, n.name ≠ nm)
    (hx : x.name = nm) :
    updNode (A ++ x :: B) nm f = A ++ f x :: B := by
  have hA2 := updNode_not_found A nm f hA
  have hB2 := updNode_not_found B nm f hB
  unfold updNode at hA2 hB2 ⊢
  rw [List.map_append, List.map_cons, hA2, hB2, if_pos hx]

/-- Re-pairing the in-neighbor names of `nm` with `nm` recovers exactly
the incoming edges of `nm`. -/
lemma repair_edges (es : List (String × String)) (nm : String) :
    (((es.filter (fun e => e.2 = nm)).map Prod.fst).map (fun p => (p, nm))) =
      es.filter (fun e => e.2 = nm) := by
  rw [List.map_map]
  have h2 : ∀ e ∈ es.filter (fun e => e.2 = nm),
      ((fun p => (p, nm)) ∘ Prod.fst) e = id e := by
    intro e he
    have h3 := (List.mem_filter.mp he).2
    have h4 : e.2 = nm := by simpa using h3
    show (e.1, nm) = e
    rw [← h4]
  rw [List.map_congr_left h2]
  exact List.map_id _

/-- Reshaping a flat one-axis array is the identity on shape and values
(a read-only view of the same floats). -/
lemma bufArrayVal_eq (arr : ArrayT) (h : arr.shape = [arr.flat.length]) :
    bufArrayVal arr.shape arr.flat = ⟨arr.shape, arr.flat, false⟩ := by
  unfold bufArrayVal
  by_cases h0 : arr.flat.length = 0
  · rw [if_pos h0, h]
  · rw [if_neg h0]

/-- The edges `buf_to_dag` has added after processing the given vertices:
each vertex contributes its incoming edges, grouped by target. -/
def edgesFor (dag : Dag) (done : List DagNode) : List (String × String) :=
  (done.map (fun v => dag.es.filter (fun e => e.2 = v.name))).flatten

/-- Decode-loop state after processing the prefix `done` of the vertex
list, with `rest` still to come. -/
def decState (dag : Dag) (done rest : List DagNode) : DecSt :=
  { nodes := decNodes 0 done ++ rest.map (fun v => ⟨v.name, none, none⟩),
    es := edgesFor dag done,
    store := done.map (decModel dag),
    last := if done.length = 0 then none else some (done.length - 1) }

lemma decState_names (dag : Dag) (done rest : List DagNode) :
    (decState dag done rest).nodes.map DNode.name =
      done.map DagNode.name ++ rest.map DagNode.name := by
  show (decNodes 0 done ++
      rest.map (fun v => (⟨v.name, none, none⟩ : DNode))).map DNode.name = _
  rw [List.map_append, decNodes_names, List.map_map]
  rfl

lemma inNeighborNames_mem (dag : Dag) (nm p : String)
    (hp : p ∈ inNeighborNames dag nm)
    (hes : ∀ e ∈ dag.es, e.1 ∈ dag.vs.map DagNode.name) :
    p ∈ dag.vs.map DagNode.name := by
  unfold inNeighborNames at hp
  obtain ⟨e, he, rfl⟩ := List.mem_map.mp hp
  exact hes e (List.mem_filter.mp he).1

lemma decode_loop_step (dag : Dag)
    (done rest' : List DagNode) (v : DagNode)
    (hsplit : dag.vs = done ++ v :: rest')
    (hwfv : wfNode v = true)
    (hes : ∀ e ∈ dag.es, e.1 ∈ dag.vs.map DagNode.name)
    (hnd : (dag.vs.map DagNode.name).Nodup) :
    decodeStep (decState dag done (v :: rest')) (encNodeF dag v) =
      .ok (decState dag (done ++ [v]) rest') := by
  have hvmem : v.name ∈ dag.vs.map DagNode.name := by
    rw [hsplit]
    simp
  have hnames : (decState dag done (v :: rest')).nodes.map DNode.name =
      dag.vs.map DagNode.name := by
    rw [decState_names, hsplit, List.map_append]
  have hedges := addEdges_ok
    ((decState dag done (v :: rest')).nodes.map DNode.name)
    (decState dag done (v :: rest')).es
    ((encNodeF dag v).parents.map (fun p => (p, (encNodeF dag v).name)))
    (by
      intro e he
      obtain ⟨p, hp, rfl⟩ := List.mem_map.mp he
      rw [encNodeF_parents] at hp
      rw [hnames, encNodeF_name]
      exact ⟨inNeighborNames_mem dag v.name p hp hes, hvmem⟩)
  have hnd2 : (done.map DagNode.name ++ v.name :: rest'.map DagNode.name).Nodup := by
    rw [← List.map_cons, ← List.map_append, ← hsplit]
    exact hnd
  have hAname : ∀ n ∈ decNodes 0 done, n.name ≠ v.name := by
    intro n hn
    have h1 : n.name ∈ (decNodes 0 done).map DNode.name := List.mem_map_of_mem _ hn
    rw [decNodes_names] at h1
    have h2 := (List.nodup_append.mp hnd2).2.2
    intro hcon
    exact h2 h1 (by rw [hcon]; simp)
  have hBname : ∀ n ∈ rest'.map (fun v => (⟨v.name, none, none⟩ : DNode)),
      n.name ≠ v.name := by
    intro n hn
    obtain ⟨u, hu, rfl⟩ := List.mem_map.mp hn
    have h2 := (List.nodup_cons.mp (List.nodup_append.mp hnd2).2.1).1
    intro hcon
    exact h2 (by rw [← hcon]; exact List.mem_map_of_mem _ hu)
  have hstorelen : (decState dag done (v :: rest')).store.length = done.length := by
    show (done.map (decModel dag)).length = done.length
    simp
  have hesplit : (decState dag done (v :: rest')).es ++
      (encNodeF dag v).parents.map (fun p => (p, (encNodeF dag v).name)) =
      edgesFor dag (done ++ [v]) := by
    rw [encNodeF_parents, encNodeF_name]
    show edgesFor dag done ++ _ = _
    unfold inNeighborNames
    rw [repair_edges]
    unfold edgesFor
    rw [List.map_append, List.flatten_append]
    simp
  have hlast : some (decState dag done (v :: rest')).store.length =
      (if (done ++ [v]).length = 0 then none
        else some ((done ++ [v]).length - 1)) := by
    rw [hstorelen]
    simp
  cases hc : v.cpd with
  | none =>
      unfold wfNode at hwfv
      rw [hc] at hwfv
      exact Bool.noConfusion (show false = true from hwfv)
  | some m =>
      have hbn : (encNodeF dag v).name = v.name := encNodeF_name dag v
      cases m with
      | cpt ls arr c s p =>
          unfold wfNode at hwfv
          rw [hc] at hwfv
          exact Bool.noConfusion (show false = true from hwfv)
      | gauss mn sd arr p =>
          have hbt2 : (encNodeF dag v).variable_type = 2 := by
            unfold encNodeF
            rw [hc]
          have hbt1 : ¬ (encNodeF dag v).variable_type = 1 := by
            rw [hbt2]
            decide
          have hbs : (encNodeF dag v).shape = arr.shape := by
            unfold encNodeF
            rw [hc]
          have hbf : (encNodeF dag v).flat = arr.flat := by
            unfold encNodeF
            rw [hc]
          have hshape : arr.shape = [arr.flat.length] := by
            unfold wfNode at hwfv
            rw [hc, Bool.and_eq_true] at hwfv
            exact of_decide_eq_true hwfv.2
          have harr : buf_to_array (encNodeF dag v).shape (encNodeF dag v).flat =
              .ok (bufArrayVal (encNodeF dag v).shape (encNodeF dag v).flat) := by
            apply buf_to_array_ok
            rw [hbs, hbf, hshape]
            exact Or.inr (by simp)
          unfold decodeStep
          split
          · next heq =>
              rw [hedges] at heq
              exact absurd heq (by simp)
          · next es2 heq =>
              rw [hedges] at heq
              injection heq with heq2
              subst heq2
              rw [if_neg hbt1, hbt2, if_pos rfl]
              split
              · next heq3 =>
                  rw [harr] at heq3
                  exact absurd heq3 (by simp)
              · next arr2 heq3 =>
                  rw [harr] at heq3
                  injection heq3 with heq4
                  subst heq4
                  apply congrArg Except.ok
                  show DecSt.mk _ _ _ _ = decState dag (done ++ [v]) rest'
                  unfold decState
                  simp only [DecSt.mk.injEq]
                  refine ⟨?_, hesplit, ?_, by
                    show some (decState dag done (v :: rest')).store.length = _
                    rw [hlast]⟩
                  · rw [hbn]
                    show updNode (decNodes 0 done ++
                      (⟨v.name, none, none⟩ : DNode) ::
                        rest'.map (fun u => (⟨u.name, none, none⟩ : DNode)))
                      v.name _ = _
                    rw [updNode_split _ _ _ _ _ hAname hBname rfl,
                      decNodes_append]
                    show _ = decNodes 0 done ++
                      ((⟨v.name, decLevelsF v, some (0 + done.length)⟩ : DNode) ::
                        decNodes (0 + done.length + 1) []) ++
                      rest'.map (fun u => (⟨u.name, none, none⟩ : DNode))
                    rw [List.append_assoc]
                    apply congrArg (decNodes 0 done ++ ·)
                    show (⟨v.name, none,
                        some (decState dag done (v :: rest')).store.length⟩ :
                          DNode) :: _ = _
                    rw [hstorelen]
                    have hdl : decLevelsF v = none := by
                      unfold decLevelsF
                      rw [hc]
                    rw [hdl]
                    show _ = (⟨v.name, none, some (0 + done.length)⟩ : DNode) ::
                      ([] ++ rest'.map (fun u => (⟨u.name, none, none⟩ : DNode)))
                    rw [Nat.zero_add, List.nil_append]
                  · show (decState dag done (v :: rest')).store ++ [_] = _
                    rw [List.map_append]
                    apply congrArg ((done.map (decModel dag)) ++ ·)
                    show [_] = [decModel dag v]
                    apply congrArg (fun x => [x])
                    have hdm : decModel dag v = PModel.gauss 0 1
                        (bufArrayVal arr.shape arr.flat)
                        (inNeighborNames dag v.name) := by
                      unfold decModel
                      rw [hc]
                    rw [hdm, hbs, hbf, encNodeF_parents]

lemma decode_loop (dag : Dag)
    (hwf : ∀ v ∈ dag.vs, wfNode v = true)
    (hes : ∀ e ∈ dag.es, e.1 ∈ dag.vs.map DagNode.name)
    (hnd : (dag.vs.map DagNode.name).Nodup) :
    ∀ (rest done : List DagNode), dag.vs = done ++ rest →
      ((rest.map (encNodeF dag)).foldlM decodeStep (decState dag done rest)) =
        .ok (decState dag dag.vs []) := by
  intro rest
  induction rest with
  | nil =>
      intro done hsplit
      have hd : done = dag.vs := by rw [hsplit, List.append_nil]
      rw [hd]
      rfl
  | cons v rest' ih =>
      intro done hsplit
      have hwfv : wfNode v = true := hwf v (by rw [hsplit]; simp)
      have hstep := decode_loop_step dag done rest' v hsplit hwfv hes hnd
      rw [List.map_cons, List.foldlM_cons, hstep]
      show ((rest'.map (encNodeF dag)).foldlM decodeStep
        (decState dag (done ++ [v]) rest')) = _
      exact ih (done ++ [v]) (by rw [hsplit]; simp)

lemma mat_decNodes (dag : Dag) : ∀ (l : List DagNode) (j : ℕ)
    (store : List PModel),
    (∀ i v, l[i]? = some v → store[j + i]? = some (decModel dag v)) →
    (decNodes j l).map (fun n => (⟨n.name, n.levels,
        n.cpdIdx.bind (fun k => store[k]?)⟩ : DagNode)) =
      l.map (fun v => (⟨v.name, decLevelsF v, some (decModel dag v)⟩ :
        DagNode)) := by
  intro l
  induction l with
  | nil => intro j store _; rfl
  | cons v vs ih =>
      intro j store h
      show (⟨v.name, decLevelsF v,
        (some j).bind (fun k => store[k]?)⟩ : DagNode) :: _ = _
      have h0 : store[j]? = some (decModel dag v) := by
        have h1 := h 0 v (by simp)
        simpa using h1
      rw [show (some j).bind (fun k => store[k]?) = store[j]? from rfl, h0]
      rw [ih (j + 1) store (by
        intro i w hw
        have h2 := h (i + 1) w (by simpa using hw)
        rw [show j + (i + 1) = j + 1 + i from by omega] at h2
        exact h2)]
      rfl

/-- Under the well-formedness hypotheses, decoding the encoded buffer
succeeds and produces the graph with the same ordered names, the decoded
levels attributes, the decoded parameter models, and the edges grouped by
target vertex. -/
lemma buf_to_dag_of_wf (dag : Dag)
    (hwf : ∀ v ∈ dag.vs, wfNode v = true)
    (hes : ∀ e ∈ dag.es, e.1 ∈ dag.vs.map DagNode.name)
    (hnd : (dag.vs.map DagNode.name).Nodup) :
    buf_to_dag (dag.vs.map (encNodeF dag)) = .ok
      { vs := dag.vs.map (fun v => (⟨v.name, decLevelsF v,
          some (decModel dag v)⟩ : DagNode)),
        es := edgesFor dag dag.vs } := by
  have hinit2 :
      ({ nodes := (dag.vs.map (encNodeF dag)).map
                    (fun b => (⟨b.name, none, none⟩ : DNode)),
         es := [], store := [], last := none } : DecSt) =
        decState dag [] dag.vs := by
    unfold decState
    simp only [DecSt.mk.injEq]
    refine ⟨?_, rfl, rfl, rfl⟩
    rw [List.map_map]
    show dag.vs.map ((fun b => (⟨b.name, none, none⟩ : DNode)) ∘
      encNodeF dag) = _
    rw [show decNodes 0 ([] : List DagNode) = [] from rfl, List.nil_append]
    apply List.map_congr_left
    intro v _
    show (⟨(encNodeF dag v).name, none, none⟩ : DNode) = _
    rw [encNodeF_name]
  have hfold := decode_loop dag hwf hes hnd dag.vs [] (by simp)
  unfold buf_to_dag
  rw [hinit2, hfold]
  show Except.ok _ = _
  apply congrArg Except.ok
  show Dag.mk _ _ = _
  simp only [Dag.mk.injEq]
  constructor
  · show ((decNodes 0 dag.vs ++ ([] : List DagNode).map
        (fun v => (⟨v.name, none, none⟩ : DNode))).map
      (fun n => (⟨n.name, n.levels, n.cpdIdx.bind
        (fun i => (dag.vs.map (decModel dag))[i]?)⟩ : DagNode))) = _
    rw [show (([] : List DagNode).map
      (fun v => (⟨v.name, none, none⟩ : DNode))) = [] from rfl,
      List.append_nil]
    apply mat_decNodes dag dag.vs 0 (dag.vs.map (decModel dag))
    intro i v hv
    rw [Nat.zero_add, List.getElem?_map, hv]
    rfl
  · rfl

/-- C1 (amended): for every well-formed all-continuous parameterized DAG
— every vertex carries a gaussian model with a flat one-axis array and
no levels attribute, names are unique, edges resolve —
`decode(encode(dag))` succeeds and reproduces the ordered node-name
list, the directed-edge set, each node's (continuous) variable kind and
absent levels attribute, and parameter arrays whose shape and raw float
contents are exactly (bit-exact) equal to the originals; only the numpy
WRITEABLE flag can differ, the decoded arrays being read-only
`frombuffer` views.  A DAG with any discrete vertex does not round-trip
at all: decoding its record raises the read-only ValueError —
`C1_counterexample` refutes the original claim over every parameterized
DAG. -/
theorem C1_roundtrip (dag : Dag) (hwf : dag.wf = true) :
    ∃ (buf : List BufNode) (dag2 : Dag),
      dag_to_buf dag = .ok buf ∧ buf_to_dag buf = .ok dag2 ∧
      dag2.vs.map DagNode.name = dag.vs.map DagNode.name ∧
      (∀ e, e ∈ dag2.es ↔ e ∈ dag.es) ∧
      (∀ (i : ℕ) (v : DagNode), dag.vs[i]? = some v →
        ∃ v2 : DagNode, dag2.vs[i]? = some v2 ∧
        v2.name = v.name ∧ v2.levels = v.levels ∧
        (∃ mn sd arr p, v.cpd = some (.gauss mn sd arr p) ∧
          ∃ (arr2 : ArrayT) (p2 : List String),
            v2.cpd = some (.gauss 0 1 arr2 p2) ∧
            arr2.shape = arr.shape ∧ arr2.flat = arr.flat)) := by
  unfold Dag.wf at hwf
  rw [Bool.and_eq_true, Bool.and_eq_true] at hwf
  have hwfv : ∀ v ∈ dag.vs, wfNode v = true :=
    List.all_eq_true.mp hwf.1.1
  have hes1 : ∀ e ∈ dag.es, e.1 ∈ dag.vs.map DagNode.name ∧
      e.2 ∈ dag.vs.map DagNode.name := by
    intro e he
    have h2 := List.all_eq_true.mp hwf.1.2 e he
    rw [Bool.and_eq_true] at h2
    exact ⟨by simpa using h2.1, by simpa using h2.2⟩
  have hnd : (dag.vs.map DagNode.name).Nodup := of_decide_eq_true hwf.2
  refine ⟨dag.vs.map (encNodeF dag),
    { vs := dag.vs.map (fun v => (⟨v.name, decLevelsF v,
        some (decModel dag v)⟩ : DagNode)),
      es := edgesFor dag dag.vs },
    dag_to_buf_ok dag hwfv,
    buf_to_dag_of_wf dag hwfv (fun e he => (hes1 e he).1) hnd, ?_, ?_, ?_⟩
  · rw [List.map_map]
    apply List.map_congr_left
    intro v _
    rfl
  · intro e
    constructor
    · intro he
      obtain ⟨l, hl, hel⟩ := List.mem_flatten.mp he
      obtain ⟨v, _, rfl⟩ := List.mem_map.mp hl
      exact (List.mem_filter.mp hel).1
    · intro he
      apply List.mem_flatten.mpr
      have h2 := (hes1 e he).2
      obtain ⟨v, hv, hvname⟩ := List.mem_map.mp h2
      refine ⟨dag.es.filter (fun e2 => e2.2 = v.name), ?_, ?_⟩
      · exact List.mem_map_of_mem _ hv
      · rw [List.mem_filter]
        exact ⟨he, by simp [hvname]⟩
  · intro i v hv
    have hmem : v ∈ dag.vs := by
      obtain ⟨hlt, heq⟩ := List.getElem?_eq_some.mp hv
      rw [← heq]
      exact List.getElem_mem hlt
    have hwfn := hwfv v hmem
    refine ⟨⟨v.name, decLevelsF v, some (decModel dag v)⟩, ?_, rfl, ?_, ?_⟩
    · rw [List.getElem?_map, hv]
      rfl
    · show decLevelsF v = v.levels
      unfold wfNode at hwfn
      unfold decLevelsF
      cases hc : v.cpd with
      | none =>
          rw [hc] at hwfn
          exact Bool.noConfusion (show false = true from hwfn)
      | some m =>
          cases m with
          | cpt ls arr c s p =>
              rw [hc] at hwfn
              exact Bool.noConfusion (show false = true from hwfn)
          | gauss mn sd arr p =>
              rw [hc] at hwfn
              rw [Bool.and_eq_true] at hwfn
              rw [of_decide_eq_true hwfn.1]
    · unfold wfNode at hwfn
      cases hc : v.cpd with
      | none =>
          rw [hc] at hwfn
          exact Bool.noConfusion (show false = true from hwfn)
      | some m =>
          cases m with
          | cpt ls arr c s p =>
              rw [hc] at hwfn
              exact Bool.noConfusion (show false = true from hwfn)
          | gauss mn sd arr p =>
              rw [hc] at hwfn
              rw [Bool.and_eq_true] at hwfn
              have hsh : arr.shape = [arr.flat.length] :=
                of_decide_eq_true hwfn.2
              refine ⟨mn, sd, arr, p, rfl, bufArrayVal arr.shape arr.flat,
                inNeighborNames dag v.name, ?_, ?_, ?_⟩
              · show some (decModel dag v) = _
                have hdm : decModel dag v = PModel.gauss 0 1
                    (bufArrayVal arr.shape arr.flat)
                    (inNeighborNames dag v.name) := by
                  unfold decModel
                  rw [hc]
                rw [hdm]
              · rw [bufArrayVal_eq arr hsh]
              · rw [bufArrayVal_eq arr hsh]

/-- Witness DAG for C1: two continuous vertices, "B" a child of "A", with
writable (freshly allocated) one-axis parameter arrays. -/
def C1wDag : Dag :=
  { vs := [{ name := "A", levels := none,
             cpd := some (.gauss 0 1 ⟨[0], [], true⟩ []) },
           { name := "B", levels := none,
             cpd := some (.gauss 2 3 ⟨[1], [F.fin 5], true⟩ ["A"]) }],
    es := [("A", "B")] }

/-- Witness for C1 (amended) at a concrete well-formed two-node
all-continuous DAG. -/
theorem C1_witness :
    ∃ (buf : List BufNode) (dag2 : Dag),
      dag_to_buf C1wDag = .ok buf ∧ buf_to_dag buf = .ok dag2 ∧
      dag2.vs.map DagNode.name = C1wDag.vs.map DagNode.name ∧
      (∀ e, e ∈ dag2.es ↔ e ∈ C1wDag.es) ∧
      (∀ (i : ℕ) (v : DagNode), C1wDag.vs[i]? = some v →
        ∃ v2 : DagNode, dag2.vs[i]? = some v2 ∧
        v2.name = v.name ∧ v2.levels = v.levels ∧
        (∃ mn sd arr p, v.cpd = some (.gauss mn sd arr p) ∧
          ∃ (arr2 : ArrayT) (p2 : List String),
            v2.cpd = some (.gauss 0 1 arr2 p2) ∧
            arr2.shape = arr.shape ∧ arr2.flat = arr.flat)) :=
  C1_roundtrip C1wDag (by with_unfolding_all decide)

/-- Counterexample DAG for C1: a single discrete vertex with a perfectly
ordinary (already normalized) table. -/
def C1cDag : Dag :=
  { vs := [{ name := "A", levels := some ["a", "b"],
             cpd := some (.cpt ["a", "b"]
               ⟨[2], [F.fin (1 / 2), F.fin (1 / 2)], true⟩
               ⟨[2], [F.fin (1 / 2), F.fin 1], true⟩ true []) }],
    es := [] }

/-- The error message a failed computation carries, if any. -/
def errOf {α : Type} : Except String α → Option String
  | .error e => some e
  | .ok _ => none

/-- C1 counterexample: a DAG with a discrete vertex encodes fine, but
decoding raises — `np.frombuffer` yields a read-only array and the
in-place masked assignment opening `rescale_probabilities` raises
`ValueError: assignment destination is read-only` on it — so
`decode(encode(dag))` reproduces nothing at all, refuting the claim over
every parameterized DAG. -/
theorem C1_counterexample :
    errOf ((dag_to_buf C1cDag).bind buf_to_dag) =
      some "ValueError: assignment destination is read-only" := by
  with_unfolding_all decide
